import Mathlib

/-!
BigInt: arbitrary-precision signed decimal integers.

A shallow embedding of `BigInt.cpp` / `BigInt.hpp` and of the properties stated about it.

* A `std::vector<uint8_t>` is a `List Nat`; every store into it that the source performs
  through `uint8_t` arithmetic or a `static_cast<uint8_t>` is reduced modulo `256`.
* A `std::string` is a `List Char`, a `char` being the byte whose code is `Char.toNat`.
* An `int64_t` is an `Int`; the one place where the source can overflow (`value = -value`)
  wraps modulo `2^64`.
* Loops are recursive functions over the loop variables, with the loop condition of the
  source as the guard.
-/

/-- The class `BigInt`: a sign flag (`true` = non-negative) and the decimal digits, least
significant first. -/
structure BigInt where
  sign : Bool
  digits : List Nat
  deriving DecidableEq, Repr

namespace BigInt

/-! ## Machine-level helpers -/

/-- Conversion `static_cast<uint8_t>(x)` of an `int`. -/
def toUInt8 (x : Int) : Nat := (x % 256).toNat

/-- Two's-complement wrap of an integer into the signed 64-bit range. -/
def wrapInt64 (x : Int) : Int := (x + 2 ^ 63) % 2 ^ 64 - 2 ^ 63

/-- The range of `int64_t`. -/
def IsInt64 (v : Int) : Prop := -(2 : Int) ^ 63 ≤ v ∧ v < (2 : Int) ^ 63

instance (v : Int) : Decidable (IsInt64 v) := by unfold IsInt64; infer_instance

/-! ## Constructors -/

/-- Default constructor `BigInt::BigInt()`. -/
def zero : BigInt := ⟨true, [0]⟩

/-- The loop `while (value != 0) { push_back(uint8_t(value % 10)); value /= 10; }`, with the
truncating division and remainder of C++. -/
def ofInt64Loop (value : Int) (digits : List Nat) : List Nat :=
  if value ≠ 0 then
    ofInt64Loop (Int.tdiv value 10) (digits ++ [toUInt8 (Int.tmod value 10)])
  else digits
termination_by value.natAbs
decreasing_by
  simp only [Int.natAbs_tdiv]
  have h0 : 0 < value.natAbs := Int.natAbs_pos.mpr (by assumption)
  have h10 : (10 : Int).natAbs = 10 := rfl
  rw [h10]
  exact Nat.div_lt_self h0 (by decide)

/-- Constructor `BigInt::BigInt(int64_t value)`. -/
def ofInt64 (value : Int) : BigInt :=
  let sign := decide (value ≥ 0)
  let value := if value ≥ 0 then value else wrapInt64 (-value)
  if value = 0 then ⟨true, [0]⟩ else ⟨sign, ofInt64Loop value []⟩

/-- Assignment `BigInt::operator=(int64_t value)`; the receiver's digits are cleared first. -/
def assignInt64 (_self : BigInt) (value : Int) : BigInt :=
  let sign := decide (value ≥ 0)
  let value := if value ≥ 0 then value else wrapInt64 (-value)
  if value = 0 then ⟨sign, [0]⟩ else ⟨sign, ofInt64Loop value []⟩

/-- The digit stored for one character: `static_cast<uint8_t>(c - '0')`. -/
def charToDigit (c : Char) : Nat := toUInt8 ((c.toNat : Int) - 48)

/-- Constructor `BigInt::BigInt(const string &value)`. `value[0]` of an empty string is the
terminating null character. The loop runs over the string in reverse and stops before the
sign character when there is one. -/
def ofString (value : List Char) : BigInt :=
  let c0 := value.headD (Char.ofNat 0)
  if c0 = '-' then ⟨false, (value.drop 1).reverse.map charToDigit⟩
  else if c0 = '+' then ⟨true, (value.drop 1).reverse.map charToDigit⟩
  else ⟨true, value.reverse.map charToDigit⟩

/-- Assignment `BigInt::operator=(const string &value)`. -/
def assignString (_self : BigInt) (value : List Char) : BigInt :=
  let c0 := value.headD (Char.ofNat 0)
  if c0 = '-' then ⟨false, (value.drop 1).reverse.map charToDigit⟩
  else if c0 = '+' then ⟨true, (value.drop 1).reverse.map charToDigit⟩
  else ⟨true, value.reverse.map charToDigit⟩

/-! ## Accessors and rendering -/

/-- Method `BigInt::size`. -/
def size (self : BigInt) : Nat := self.digits.length

/-- Method `BigInt::getDigits`. -/
def getDigits (self : BigInt) : List Nat := self.digits

/-- Method `BigInt::getSign`. -/
def getSign (self : BigInt) : Bool := self.sign

/-- The character pushed for one digit: `static_cast<char>('0' + d)`. -/
def digitToChar (d : Nat) : Char := Char.ofNat ((48 + d) % 256)

/-- Method `BigInt::toString`. -/
def toString (self : BigInt) : List Char :=
  (if !self.sign then ['-'] else []) ++ self.digits.reverse.map digitToChar

/-! ## Normalisation and negation -/

/-- The loop `while (digits.size() > 1 && digits.back() == 0) digits.pop_back();`. -/
def trim (digits : List Nat) : List Nat :=
  if digits.length > 1 ∧ digits.getLast? = some 0 then trim digits.dropLast else digits
termination_by digits.length
decreasing_by
  simp only [List.length_dropLast]
  omega

/-- The test `digits.size() == 1 && digits[0] == 0`. -/
def isZeroDigits (digits : List Nat) : Bool :=
  digits.length == 1 && digits.getD 0 0 == 0

/-- Unary `BigInt::operator-()`. -/
def neg (self : BigInt) : BigInt :=
  if isZeroDigits self.digits then self else { self with sign := !self.sign }

/-! ## Comparison -/

/-- Method `BigInt::operator==`. -/
def eq (self rhs : BigInt) : Bool :=
  if self.sign ≠ rhs.sign then false
  else if self.digits = rhs.digits then true
  else false

/-- Method `BigInt::operator!=`. -/
def ne (self rhs : BigInt) : Bool := !(eq self rhs)

/-- The scan of `operator<` for two non-negative operands of equal size. The arguments are
the two digit vectors seen through their reverse iterators (most significant digit first).
The second list cannot run out before the first, the sizes being equal. -/
def ltScanPos : List Nat → List Nat → Bool
  | [], _ => false
  | _ :: _, [] => false
  | x :: xs, y :: ys =>
    if x = y then ltScanPos xs ys
    else if x < y then true
    else false

/-- The scan of `operator<` for two negative operands of equal size. -/
def ltScanNeg : List Nat → List Nat → Bool
  | [], _ => false
  | _ :: _, [] => false
  | x :: xs, y :: ys =>
    if x = y then ltScanNeg xs ys
    else if x < y then false
    else true

/-- Method `BigInt::operator<`. -/
def lt (self rhs : BigInt) : Bool :=
  if self.sign ≠ rhs.sign then
    if self.sign then false else true
  else if self.sign then
    if self.size > rhs.size then false
    else if self.size < rhs.size then true
    else ltScanPos self.digits.reverse rhs.digits.reverse
  else
    if self.size > rhs.size then true
    else if self.size < rhs.size then false
    else ltScanNeg self.digits.reverse rhs.digits.reverse

/-- The scan of `operator>` for two non-negative operands of equal size. -/
def gtScanPos : List Nat → List Nat → Bool
  | [], _ => false
  | _ :: _, [] => false
  | x :: xs, y :: ys =>
    if x = y then gtScanPos xs ys
    else if x < y then false
    else true

/-- The scan of `operator>` for two negative operands of equal size. -/
def gtScanNeg : List Nat → List Nat → Bool
  | [], _ => false
  | _ :: _, [] => false
  | x :: xs, y :: ys =>
    if x = y then gtScanNeg xs ys
    else if x < y then true
    else false

/-- Method `BigInt::operator>`. -/
def gt (self rhs : BigInt) : Bool :=
  if self.sign ≠ rhs.sign then
    if self.sign then true else false
  else if self.sign then
    if self.size > rhs.size then true
    else if self.size < rhs.size then false
    else gtScanPos self.digits.reverse rhs.digits.reverse
  else
    if self.size > rhs.size then false
    else if self.size < rhs.size then true
    else gtScanNeg self.digits.reverse rhs.digits.reverse

/-- Method `BigInt::operator<=`. -/
def le (self rhs : BigInt) : Bool := !(gt self rhs)

/-- Method `BigInt::operator>=`. -/
def ge (self rhs : BigInt) : Bool := !(lt self rhs)

/-- Method `BigInt::isAbsGreaterOrEqual`. -/
def isAbsGreaterOrEqual (lhs rhs : BigInt) : Bool :=
  if lhs.sign then ge lhs (neg rhs) else ge (neg lhs) rhs

/-! ## Addition and subtraction -/

/-- The loop of `BigInt::subtractAbs` over `i`, with the running `borrow`. The read of
`digits[i]` is guarded by the loop condition. -/
def subtractAbsLoop (digits rhs : List Nat) (i : Nat) (borrow : Bool) : List Nat :=
  if i < digits.length then
    let subtraction : Int :=
      (digits.getD i 0 : Int) - (if i < rhs.length then (rhs.getD i 0 : Int) else 0)
        - (if borrow then 1 else 0)
    let borrow1 : Bool := decide (subtraction < 0)
    let subtraction1 : Int := if borrow1 then subtraction + 10 else subtraction
    subtractAbsLoop (digits.set i (toUInt8 subtraction1)) rhs (i + 1) borrow1
  else digits
termination_by digits.length - i
decreasing_by
  simp only [List.length_set]
  omega

/-- Method `BigInt::subtractAbs`: the receiver after the call. -/
def subtractAbs (self rhs : BigInt) : BigInt :=
  { self with digits := trim (subtractAbsLoop self.digits rhs.digits 0 false) }

/-- The same-sign loop of `BigInt::operator+=`,
`for (i = 0; i < maxLength || carry; ++i)`. The index never exceeds the size of `digits`
(a digit is appended whenever it reaches it), so `digits[i]` is in range. -/
def addLoop (digits rhs : List Nat) (maxLength i : Nat) (carry : Bool) : List Nat :=
  if i < maxLength ∨ carry = true then
    let digits1 := if i = digits.length then digits ++ [0] else digits
    let sum : Nat :=
      (digits1.getD i 0 + (carry.toNat + (if i < rhs.length then rhs.getD i 0 else 0))) % 256
    let carry1 : Bool := decide (sum ≥ 10)
    let digit : Nat := if carry1 then sum - 10 else sum
    addLoop (digits1.set i digit) rhs maxLength (i + 1) carry1
  else digits
termination_by 2 * (max (max maxLength digits.length) rhs.length - i) + carry.toNat
decreasing_by
  rename_i hcond
  show 2 * (max (max maxLength (digits1.set i digit).length) rhs.length - (i + 1)) + carry1.toNat
    < 2 * (max (max maxLength digits.length) rhs.length - i) + carry.toNat
  have hlen : digits1.length = if i = digits.length then digits.length + 1 else digits.length := by
    simp only [digits1]
    split <;> simp
  have hc1 : carry1.toNat ≤ 1 := Bool.toNat_le carry1
  have hb : carry.toNat ≤ 1 := Bool.toNat_le carry
  have hcarry : maxLength ≤ i → carry.toNat = 1 := by
    intro h
    rcases hcond with h1 | h1
    · omega
    · simp [h1]
  have hstop : max (max maxLength digits.length) rhs.length ≤ i → carry1.toNat = 0 := by
    intro h
    have hget : digits1.getD i 0 = 0 := by
      simp only [digits1]
      split
      · next h2 => subst h2; simp [List.getD]
      · apply List.getD_eq_default
        omega
    have hr : ¬ i < rhs.length := by omega
    have hs : sum = 1 := by
      simp only [sum, hget, hcarry (by omega), dif_neg hr]
    simp [carry1, hs]
  rw [List.length_set, hlen]
  split <;> omega

/-- Method `BigInt::operator+=`: the receiver after the call. -/
def addAssign (self rhs : BigInt) : BigInt :=
  let r : BigInt :=
    if self.sign ≠ rhs.sign then
      if isAbsGreaterOrEqual self rhs then subtractAbs self rhs
      else { subtractAbs rhs self with sign := rhs.sign }
    else
      { self with
        digits := addLoop self.digits rhs.digits (max self.digits.length rhs.digits.length) 0 false }
  let digits := trim r.digits
  if isZeroDigits digits then ⟨true, digits⟩ else ⟨r.sign, digits⟩

/-- Method `BigInt::operator-=`. -/
def subAssign (self rhs : BigInt) : BigInt := addAssign self (neg rhs)

/-- Free function `operator+`: copies `lhs`, applies `+=`, returns the copy. -/
def add (lhs rhs : BigInt) : BigInt := addAssign lhs rhs

/-- Free function `operator-`: copies `lhs`, applies `-=`, returns the copy. -/
def sub (lhs rhs : BigInt) : BigInt := subAssign lhs rhs

/-! ## Multiplication -/

/-- The inner loop of `BigInt::operator*=`, `for (j = 0; j < rhs.size() || carry; ++j)`, for a
fixed digit `ai = this->digits[i]`. An access to `result.digits[i + j]` outside the vector is
undefined behaviour and gives `none`. -/
def mulInner (result : List Nat) (ai : Nat) (rhs : List Nat) (i j carry : Nat) :
    Option (List Nat) :=
  if j < rhs.length ∨ carry ≠ 0 then
    if i + j < result.length then
      let current : Nat :=
        result.getD (i + j) 0 + ai * (if j < rhs.length then rhs.getD j 0 else 0) + carry
      mulInner (result.set (i + j) (current % 10)) ai rhs i (j + 1) (current / 10)
    else none
  else some result
termination_by result.length - (i + j)
decreasing_by
  simp only [List.length_set]
  omega

/-- The outer loop of `BigInt::operator*=`, `for (i = 0; i < this->digits.size(); ++i)`. -/
def mulOuter (result lhs rhs : List Nat) (i : Nat) : Option (List Nat) :=
  if i < lhs.length then
    match mulInner result (lhs.getD i 0) rhs i 0 0 with
    | none => none
    | some result1 => mulOuter result1 lhs rhs (i + 1)
  else some result
termination_by lhs.length - i

/-- Method `BigInt::operator*=`: the receiver after the call, or `none` when the carry loop
leaves the pre-sized result vector. -/
def mulAssign (self rhs : BigInt) : Option BigInt :=
  match mulOuter (List.replicate (self.digits.length + rhs.digits.length) 0)
      self.digits rhs.digits 0 with
  | none => none
  | some digits0 =>
    let digits := trim digits0
    if isZeroDigits digits then some ⟨true, digits⟩
    else some ⟨!(xor self.sign rhs.sign), digits⟩

/-- Free function `operator*`: copies `lhs`, applies `*=`, returns the copy. -/
def mul (lhs rhs : BigInt) : Option BigInt := mulAssign lhs rhs

/-! ## Specification vocabulary -/

/-- The number denoted by a little-endian digit sequence: the sum of `digits[i] * 10^i`. -/
def magnitude : List Nat → Nat
  | [] => 0
  | d :: ds => d + 10 * magnitude ds

/-- The integer denoted by a `BigInt`. -/
def value (x : BigInt) : Int :=
  if x.sign then (magnitude x.digits : Int) else -(magnitude x.digits : Int)

/-- The four data-model invariants: digits non-empty, every digit in `0..9`, no
most-significant zero unless the digits are exactly `[0]`, and zero is non-negative. -/
def WellFormed (x : BigInt) : Prop :=
  x.digits ≠ [] ∧ (∀ d ∈ x.digits, d ≤ 9) ∧
    (x.digits.getLast? = some 0 → x.digits = [0]) ∧ (x.digits = [0] → x.sign = true)

instance (x : BigInt) : Decidable (WellFormed x) := by unfold WellFormed; infer_instance

/-- The digit-level part of well-formedness. -/
def Canonical (l : List Nat) : Prop :=
  l ≠ [] ∧ (∀ d ∈ l, d ≤ 9) ∧ (l.getLast? = some 0 → l = [0])

/-- Canonical decimal string: an optional leading `-`, then one or more ASCII digits, with no
leading zero unless the string is `"0"` (so `"-0"` is excluded). -/
def IsCanonicalString (s : List Char) : Prop :=
  let body := if s.head? = some '-' then s.drop 1 else s
  body ≠ [] ∧ (∀ c ∈ body, c.isDigit = true) ∧ (body.head? = some '0' → s = ['0'])

instance (s : List Char) : Decidable (IsCanonicalString s) := by
  unfold IsCanonicalString; infer_instance

/-! ## Front end -/

/-- The operand validation of `parseAndExecute` in `demo.cpp`: the string that is handed to
the string constructor, or `none` when the operand is rejected with an exception. The flag
`isNegative` is computed once, before a lone `"-0"` is replaced by `"0"`; `operand[1]` of a
one-character string is the terminating null character. -/
def validateOperand (operand : List Char) : Option (List Char) :=
  if operand.isEmpty then none
  else
    let isNegative : Bool := operand.headD (Char.ofNat 0) == '-'
    if isNegative && operand.length == 1 then none
    else
      let rewritten : Option (List Char) :=
        if isNegative && operand.getD 1 (Char.ofNat 0) == '0' then
          if operand.length == 2 then some ['0'] else none
        else some operand
      match rewritten with
      | none => none
      | some operand1 =>
        if (operand1.drop (if isNegative then 1 else 0)).all Char.isDigit then some operand1
        else none

/-! ## Instrumented multiplication -/

/-- The inner loop of `BigInt::operator*=` once more, returning the indices `i + j` of
`result.digits` that its iterations access, in order. An index outside the vector is
recorded and ends the trace there. -/
def mulInnerTrace (result : List Nat) (ai : Nat) (rhs : List Nat) (i j carry : Nat) :
    List Nat :=
  if j < rhs.length ∨ carry ≠ 0 then
    if i + j < result.length then
      let current : Nat :=
        result.getD (i + j) 0 + ai * (if j < rhs.length then rhs.getD j 0 else 0) + carry
      (i + j) :: mulInnerTrace (result.set (i + j) (current % 10)) ai rhs i (j + 1) (current / 10)
    else [i + j]
  else []
termination_by result.length - (i + j)
decreasing_by
  simp only [List.length_set]
  omega

/-- The outer loop of `BigInt::operator*=` once more, returning one access trace of the inner
loop for each digit index `i` it runs; it stops after a row that leaves the vector. -/
def mulOuterTrace (result lhs rhs : List Nat) (i : Nat) : List (List Nat) :=
  if i < lhs.length then
    mulInnerTrace result (lhs.getD i 0) rhs i 0 0 ::
      (match mulInner result (lhs.getD i 0) rhs i 0 0 with
        | none => []
        | some result1 => mulOuterTrace result1 lhs rhs (i + 1))
  else []
termination_by lhs.length - i

/-- The access traces of `a *= b`, one for each digit index of `a`, on the result vector
pre-sized to `len(a) + len(b)` zeros. -/
def mulAssignTrace (self rhs : BigInt) : List (List Nat) :=
  mulOuterTrace (List.replicate (self.digits.length + rhs.digits.length) 0)
    self.digits rhs.digits 0

/-! ## Digit sequences and their magnitude -/

theorem magnitude_eq_ofDigits (l : List Nat) : magnitude l = Nat.ofDigits 10 l := by
  induction l with
  | nil => rfl
  | cons d ds ih => rw [magnitude, Nat.ofDigits_cons, ih]

/-- The recursive `magnitude` is the positional sum of `digits[i] * 10^i`. -/
theorem magnitude_eq_sum (l : List Nat) :
    magnitude l = (List.mapIdx (fun i a => a * 10 ^ i) l).sum := by
  rw [magnitude_eq_ofDigits, Nat.ofDigits_eq_sum_mapIdx]

theorem magnitude_append (l1 l2 : List Nat) :
    magnitude (l1 ++ l2) = magnitude l1 + 10 ^ l1.length * magnitude l2 := by
  simp only [magnitude_eq_ofDigits, Nat.ofDigits_append]

theorem magnitude_singleton (d : Nat) : magnitude [d] = d := by
  simp [magnitude]

theorem magnitude_lt_pow (l : List Nat) (h : ∀ d ∈ l, d ≤ 9) : magnitude l < 10 ^ l.length := by
  rw [magnitude_eq_ofDigits]
  apply Nat.ofDigits_lt_base_pow_length (by decide)
  intro x hx
  have := h x hx
  omega

theorem pow_le_magnitude (l : List Nat) (hne : l ≠ []) (hlast : l.getLast? ≠ some 0) :
    10 ^ l.length ≤ 10 * magnitude l := by
  rw [magnitude_eq_ofDigits]
  apply Nat.pow_length_le_mul_ofDigits hne
  intro h0
  apply hlast
  rw [List.getLast?_eq_getLast l hne, h0]

theorem WellFormed.canonical {x : BigInt} (h : WellFormed x) : Canonical x.digits :=
  ⟨h.1, h.2.1, h.2.2.1⟩

theorem Canonical.last_ne_zero {l : List Nat} (h : Canonical l) (h2 : 2 ≤ l.length) :
    l.getLast? ≠ some 0 := by
  intro h0
  have := h.2.2 h0
  rw [this] at h2
  simp at h2

theorem Canonical.magnitude_lt_of_length_lt {l1 l2 : List Nat} (h1 : Canonical l1)
    (h2 : Canonical l2) (hlen : l1.length < l2.length) : magnitude l1 < magnitude l2 := by
  have hl1 : 0 < l1.length := List.length_pos.mpr h1.1
  have ha := magnitude_lt_pow l1 h1.2.1
  have hb := pow_le_magnitude l2 h2.1 (h2.last_ne_zero (by omega))
  have hpow : 10 ^ (l1.length + 1) ≤ 10 ^ l2.length :=
    Nat.pow_le_pow_right (by decide) (by omega)
  rw [Nat.pow_succ] at hpow
  omega

theorem Canonical.eq_zero_of_magnitude {l : List Nat} (h : Canonical l)
    (h0 : magnitude l = 0) : l = [0] := by
  by_cases hl : l.getLast? = some 0
  · exact h.2.2 hl
  · have := pow_le_magnitude l h.1 hl
    rw [h0] at this
    have hp : 0 < 10 ^ l.length := by positivity
    omega

theorem Canonical.eq_of_magnitude_eq {l1 l2 : List Nat} (h1 : Canonical l1)
    (h2 : Canonical l2) (h : magnitude l1 = magnitude l2) : l1 = l2 := by
  by_cases hz : magnitude l1 = 0
  · rw [h1.eq_zero_of_magnitude hz, h2.eq_zero_of_magnitude (h ▸ hz)]
  · have key : ∀ l : List Nat, Canonical l → magnitude l ≠ 0 →
        Nat.digits 10 (magnitude l) = l := by
      intro l hl hne
      rw [magnitude_eq_ofDigits]
      apply Nat.digits_ofDigits 10 (by decide) l
      · intro d hd
        have := hl.2.1 d hd
        omega
      · intro hnil h0
        have hlast : l.getLast? = some 0 := by rw [List.getLast?_eq_getLast l hnil, h0]
        have := hl.2.2 hlast
        rw [this] at hne
        exact hne (by simp [magnitude])
    rw [← key l1 h1 hz, ← key l2 h2 (h ▸ hz), h]

theorem WellFormed.magnitude_pos {x : BigInt} (h : WellFormed x) (hs : x.sign = false) :
    0 < magnitude x.digits := by
  rcases Nat.eq_zero_or_pos (magnitude x.digits) with h0 | h0
  · have := h.2.2.2 (h.canonical.eq_zero_of_magnitude h0)
    rw [hs] at this
    cases this
  · exact h0

/-! ## Comparison scans -/

theorem ltScanNeg_eq_gtScanPos (xs ys : List Nat) : ltScanNeg xs ys = gtScanPos xs ys := by
  induction xs generalizing ys with
  | nil => simp [ltScanNeg, gtScanPos]
  | cons x xs ih =>
    cases ys with
    | nil => simp [ltScanNeg, gtScanPos]
    | cons y ys => simp [ltScanNeg, gtScanPos, ih]

theorem gtScanNeg_eq_ltScanPos (xs ys : List Nat) : gtScanNeg xs ys = ltScanPos xs ys := by
  induction xs generalizing ys with
  | nil => simp [gtScanNeg, ltScanPos]
  | cons x xs ih =>
    cases ys with
    | nil => simp [gtScanNeg, ltScanPos]
    | cons y ys => simp [gtScanNeg, ltScanPos, ih]

theorem gtScanPos_swap (xs ys : List Nat) (hlen : xs.length = ys.length) :
    gtScanPos xs ys = ltScanPos ys xs := by
  induction xs generalizing ys with
  | nil =>
    cases ys with
    | nil => simp [gtScanPos, ltScanPos]
    | cons y ys => simp at hlen
  | cons x xs ih =>
    cases ys with
    | nil => simp at hlen
    | cons y ys =>
      simp only [List.length_cons, Nat.add_right_cancel_iff] at hlen
      simp only [gtScanPos, ltScanPos]
      by_cases hxy : x = y
      · subst hxy
        simp [ih ys hlen]
      · have hyx : ¬ y = x := fun h => hxy h.symm
        simp only [hxy, hyx, if_false]
        by_cases hlt : x < y
        · have : ¬ y < x := by omega
          simp [hlt, this]
        · have : y < x := by omega
          simp [hlt, this]

/-- Of two most-significant-first digit rows of equal length, exactly one of "scans as less",
"equal" and "scans as greater" holds. -/
theorem scan_trichotomy (xs ys : List Nat) (hlen : xs.length = ys.length) :
    (ltScanPos xs ys = true ∧ xs ≠ ys ∧ gtScanPos xs ys = false) ∨
    (ltScanPos xs ys = false ∧ xs = ys ∧ gtScanPos xs ys = false) ∨
    (ltScanPos xs ys = false ∧ xs ≠ ys ∧ gtScanPos xs ys = true) := by
  induction xs generalizing ys with
  | nil =>
    cases ys with
    | nil => simp [gtScanPos, ltScanPos]
    | cons y ys => simp at hlen
  | cons x xs ih =>
    cases ys with
    | nil => simp at hlen
    | cons y ys =>
      simp only [List.length_cons, Nat.add_right_cancel_iff] at hlen
      simp only [gtScanPos, ltScanPos]
      by_cases hxy : x = y
      · subst hxy
        simpa using ih ys hlen
      · by_cases hlt : x < y
        · simp [hxy, hlt]
        · simp [hxy, hlt]

/-- The non-negative scan of `operator<` decides the order of the magnitudes. -/
theorem ltScanPos_iff (xs ys : List Nat) (hlen : xs.length = ys.length)
    (hx : ∀ d ∈ xs, d ≤ 9) (hy : ∀ d ∈ ys, d ≤ 9) :
    ltScanPos xs ys = true ↔ magnitude xs.reverse < magnitude ys.reverse := by
  induction xs generalizing ys with
  | nil =>
    cases ys with
    | nil => simp [ltScanPos]
    | cons y ys => simp at hlen
  | cons x xs ih =>
    cases ys with
    | nil => simp at hlen
    | cons y ys =>
      simp only [List.length_cons, Nat.add_right_cancel_iff] at hlen
      have hx' : ∀ d ∈ xs, d ≤ 9 := fun d hd => hx d (List.mem_cons_of_mem _ hd)
      have hy' : ∀ d ∈ ys, d ≤ 9 := fun d hd => hy d (List.mem_cons_of_mem _ hd)
      have bx := magnitude_lt_pow xs.reverse (by simpa using hx')
      have bY := magnitude_lt_pow ys.reverse (by simpa using hy')
      simp only [List.length_reverse] at bx bY
      simp only [ltScanPos, List.reverse_cons, magnitude_append, magnitude_singleton,
        List.length_reverse]
      rw [← hlen] at bY ⊢
      generalize 10 ^ xs.length = P at bx bY ⊢
      by_cases hxy : x = y
      · subst hxy
        simp only [if_true]
        rw [ih ys hlen hx' hy']
        omega
      · simp only [hxy, if_false]
        by_cases hlt : x < y
        · simp only [hlt, if_true, true_iff]
          have : P * (x + 1) ≤ P * y := Nat.mul_le_mul_left P hlt
          rw [Nat.mul_add, Nat.mul_one] at this
          omega
        · simp only [hlt, if_false, Bool.false_eq_true, false_iff, not_lt]
          have hyx : y + 1 ≤ x := by omega
          have : P * (y + 1) ≤ P * x := Nat.mul_le_mul_left P hyx
          rw [Nat.mul_add, Nat.mul_one] at this
          omega

/-! ## Correctness of the comparison operators -/

theorem ltScanPos_digits_iff (da db : List Nat) (hlen : da.length = db.length)
    (ha : ∀ d ∈ da, d ≤ 9) (hb : ∀ d ∈ db, d ≤ 9) :
    ltScanPos da.reverse db.reverse = true ↔ magnitude da < magnitude db := by
  have h := ltScanPos_iff da.reverse db.reverse (by simpa using hlen)
    (by simpa using ha) (by simpa using hb)
  simpa using h

theorem lt_iff_value_lt (a b : BigInt) (ha : WellFormed a) (hb : WellFormed b) :
    lt a b = true ↔ value a < value b := by
  have ca := ha.canonical
  have cb := hb.canonical
  obtain ⟨sa, da⟩ := a
  obtain ⟨sb, db⟩ := b
  cases sa <;> cases sb
  · -- both negative
    simp only [lt, value, size, ne_eq, not_true_eq_false, if_false, Bool.false_eq_true,
      neg_lt_neg_iff, Nat.cast_lt]
    by_cases h1 : da.length > db.length
    · simp only [h1, if_true, true_iff]
      exact cb.magnitude_lt_of_length_lt ca h1
    · by_cases h2 : da.length < db.length
      · simp only [h1, h2, if_false, if_true, Bool.false_eq_true, false_iff, not_lt]
        exact Nat.le_of_lt (ca.magnitude_lt_of_length_lt cb h2)
      · simp only [h1, h2, if_false]
        have hlen : da.length = db.length := by omega
        rw [ltScanNeg_eq_gtScanPos, gtScanPos_swap _ _ (by simpa using hlen)]
        exact ltScanPos_digits_iff db da hlen.symm cb.2.1 ca.2.1
  · -- negative against non-negative
    have hpos : 0 < magnitude da := ha.magnitude_pos rfl
    simp only [lt, value, ne_eq, Bool.false_eq_true, not_false_eq_true, if_true, if_false,
      true_iff]
    have : (0 : Int) < (magnitude da : Int) := by exact_mod_cast hpos
    have : (0 : Int) ≤ (magnitude db : Int) := Int.natCast_nonneg _
    omega
  · -- non-negative against negative
    have hpos : 0 < magnitude db := hb.magnitude_pos rfl
    simp only [lt, value, ne_eq, Bool.true_eq_false, not_false_eq_true, if_true,
      Bool.false_eq_true, if_false, false_iff, not_lt]
    have : (0 : Int) < (magnitude db : Int) := by exact_mod_cast hpos
    have : (0 : Int) ≤ (magnitude da : Int) := Int.natCast_nonneg _
    omega
  · -- both non-negative
    simp only [lt, value, size, ne_eq, not_true_eq_false, if_false, if_true, Nat.cast_lt]
    by_cases h1 : da.length > db.length
    · simp only [h1, if_true, Bool.false_eq_true, false_iff, not_lt]
      exact Nat.le_of_lt (cb.magnitude_lt_of_length_lt ca h1)
    · by_cases h2 : da.length < db.length
      · simp only [h1, h2, if_false, if_true, true_iff]
        exact ca.magnitude_lt_of_length_lt cb h2
      · simp only [h1, h2, if_false]
        have hlen : da.length = db.length := by omega
        exact ltScanPos_digits_iff da db hlen ca.2.1 cb.2.1

theorem eq_iff_value_eq (a b : BigInt) (ha : WellFormed a) (hb : WellFormed b) :
    eq a b = true ↔ value a = value b := by
  have ca := ha.canonical
  have cb := hb.canonical
  have pa := @WellFormed.magnitude_pos a ha
  have pb := @WellFormed.magnitude_pos b hb
  obtain ⟨sa, da⟩ := a
  obtain ⟨sb, db⟩ := b
  have key : magnitude da = magnitude db ↔ da = db :=
    ⟨fun h => ca.eq_of_magnitude_eq cb h, fun h => by rw [h]⟩
  cases sa <;> cases sb
  · simp only [eq, value, ne_eq, not_true_eq_false, if_false, Bool.false_eq_true, neg_inj,
      Nat.cast_inj]
    rw [key]
    by_cases h : da = db <;> simp [h]
  · have h1 : 0 < magnitude da := pa rfl
    simp only [eq, value, ne_eq, reduceCtorEq, not_false_eq_true, if_true, Bool.false_eq_true,
      if_false, false_iff]
    have : (0 : Int) < (magnitude da : Int) := by exact_mod_cast h1
    have : (0 : Int) ≤ (magnitude db : Int) := Int.natCast_nonneg _
    omega
  · have h1 : 0 < magnitude db := pb rfl
    simp only [eq, value, ne_eq, Bool.true_eq_false, not_false_eq_true, if_true,
      Bool.false_eq_true, if_false, false_iff]
    have : (0 : Int) < (magnitude db : Int) := by exact_mod_cast h1
    have : (0 : Int) ≤ (magnitude da : Int) := Int.natCast_nonneg _
    omega
  · simp only [eq, value, ne_eq, not_true_eq_false, if_false, if_true, Nat.cast_inj]
    rw [key]
    by_cases h : da = db <;> simp [h]

/-- A well-formed `BigInt` is determined by its value. -/
theorem WellFormed.eq_of_value_eq {a b : BigInt} (ha : WellFormed a) (hb : WellFormed b)
    (h : value a = value b) : a = b := by
  have h1 := (eq_iff_value_eq a b ha hb).mpr h
  obtain ⟨sa, da⟩ := a
  obtain ⟨sb, db⟩ := b
  simp only [eq, ne_eq] at h1
  by_cases hs : sa = sb
  · by_cases hd : da = db
    · rw [hs, hd]
    · simp [hs, hd] at h1
  · simp [hs] at h1

theorem gt_eq_lt_swap (a b : BigInt) : gt a b = lt b a := by
  obtain ⟨sa, da⟩ := a
  obtain ⟨sb, db⟩ := b
  cases sa <;> cases sb
  · simp only [gt, lt, size, ne_eq, not_true_eq_false, if_false, Bool.false_eq_true]
    by_cases h1 : da.length > db.length
    · have h2 : ¬ db.length > da.length := by omega
      have h3 : db.length < da.length := h1
      simp [h1, h2, h3]
    · by_cases h2 : da.length < db.length
      · have h3 : db.length > da.length := h2
        simp [h1, h2, h3]
      · have h3 : ¬ db.length > da.length := h2
        have h4 : ¬ db.length < da.length := h1
        have hlen : da.reverse.length = db.reverse.length := by
          simp only [List.length_reverse]
          omega
        simp only [h1, h2, h3, h4, if_false]
        rw [gtScanNeg_eq_ltScanPos, ltScanNeg_eq_gtScanPos, gtScanPos_swap _ _ hlen.symm]
  · simp [gt, lt]
  · simp [gt, lt]
  · simp only [gt, lt, size, ne_eq, not_true_eq_false, if_false, if_true]
    by_cases h1 : da.length > db.length
    · have h2 : ¬ db.length > da.length := by omega
      have h3 : db.length < da.length := h1
      simp [h1, h2, h3]
    · by_cases h2 : da.length < db.length
      · have h3 : db.length > da.length := h2
        simp [h1, h2, h3]
      · have h3 : ¬ db.length > da.length := h2
        have h4 : ¬ db.length < da.length := h1
        have hlen : da.reverse.length = db.reverse.length := by
          simp only [List.length_reverse]
          omega
        simp only [h1, h2, h3, h4, if_false]
        exact gtScanPos_swap _ _ hlen

theorem trichotomy_aux (a b : BigInt) :
    (lt a b = true ∧ eq a b = false ∧ gt a b = false) ∨
    (lt a b = false ∧ eq a b = true ∧ gt a b = false) ∨
    (lt a b = false ∧ eq a b = false ∧ gt a b = true) := by
  obtain ⟨sa, da⟩ := a
  obtain ⟨sb, db⟩ := b
  have hne : ∀ l1 l2 : List Nat, l1.length ≠ l2.length → l1 ≠ l2 := by
    intro l1 l2 h he
    exact h (by rw [he])
  cases sa <;> cases sb
  · simp only [gt, lt, eq, size, ne_eq, not_true_eq_false, if_false, Bool.false_eq_true]
    by_cases h1 : da.length > db.length
    · have hd := hne da db (by omega)
      simp [h1, hd]
    · by_cases h2 : da.length < db.length
      · have hd := hne da db (by omega)
        simp [h1, h2, hd]
      · have hlen : da.reverse.length = db.reverse.length := by
          simp only [List.length_reverse]
          omega
        simp only [h1, h2, if_false]
        rw [gtScanNeg_eq_ltScanPos, ltScanNeg_eq_gtScanPos]
        rcases scan_trichotomy da.reverse db.reverse hlen with h | h | h
        · have hd : ¬ da = db := fun he => h.2.1 (by rw [he])
          simp [h.1, h.2.2, hd]
        · have hd : da = db := List.reverse_injective h.2.1
          subst hd
          simp [h.1, h.2.2]
        · have hd : ¬ da = db := fun he => h.2.1 (by rw [he])
          simp [h.1, h.2.2, hd]
  · simp [gt, lt, eq]
  · simp [gt, lt, eq]
  · simp only [gt, lt, eq, size, ne_eq, not_true_eq_false, if_false, if_true]
    by_cases h1 : da.length > db.length
    · have hd := hne da db (by omega)
      simp [h1, hd]
    · by_cases h2 : da.length < db.length
      · have hd := hne da db (by omega)
        simp [h1, h2, hd]
      · have hlen : da.reverse.length = db.reverse.length := by
          simp only [List.length_reverse]
          omega
        simp only [h1, h2, if_false]
        rcases scan_trichotomy da.reverse db.reverse hlen with h | h | h
        · have hd : ¬ da = db := fun he => h.2.1 (by rw [he])
          simp [h.1, h.2.2, hd]
        · have hd : da = db := List.reverse_injective h.2.1
          subst hd
          simp [h.1, h.2.2]
        · have hd : ¬ da = db := fun he => h.2.1 (by rw [he])
          simp [h.1, h.2.2, hd]

/-- C7: for well-formed `a` and `b`, `a < b` holds exactly when `value a < value b`; this
covers mixed signs, two negatives of different digit counts and two negatives of equal
digit count, where the digit comparison is inverted. -/
theorem lt_agrees_with_integer_order (a b : BigInt) (ha : WellFormed a) (hb : WellFormed b) :
    lt a b = true ↔ value a < value b :=
  lt_iff_value_lt a b ha hb

theorem lt_agrees_with_integer_order_witness :
    WellFormed ⟨false, [3, 1]⟩ ∧ WellFormed ⟨false, [5, 1]⟩ ∧
      (lt ⟨false, [3, 1]⟩ ⟨false, [5, 1]⟩ = true ↔
        value ⟨false, [3, 1]⟩ < value ⟨false, [5, 1]⟩) :=
  ⟨by decide, by decide,
    lt_agrees_with_integer_order ⟨false, [3, 1]⟩ ⟨false, [5, 1]⟩ (by decide) (by decide)⟩

/-- C8: for well-formed `a` and `b`, `a == b` (same sign and same digit sequence) holds
exactly when `value a = value b`, and then `a` and `b` are the same representation: the
well-formed representation of an integer is unique. -/
theorem eq_is_value_equality (a b : BigInt) (ha : WellFormed a) (hb : WellFormed b) :
    (eq a b = true ↔ value a = value b) ∧ (value a = value b → a = b) :=
  ⟨eq_iff_value_eq a b ha hb, fun h => ha.eq_of_value_eq hb h⟩

theorem eq_is_value_equality_witness :
    WellFormed ⟨false, [2, 4]⟩ ∧ WellFormed ⟨true, [2, 4]⟩ ∧
      ((eq ⟨false, [2, 4]⟩ ⟨true, [2, 4]⟩ = true ↔
          value ⟨false, [2, 4]⟩ = value ⟨true, [2, 4]⟩) ∧
        (value ⟨false, [2, 4]⟩ = value ⟨true, [2, 4]⟩ →
          (⟨false, [2, 4]⟩ : BigInt) = ⟨true, [2, 4]⟩)) :=
  ⟨by decide, by decide,
    eq_is_value_equality ⟨false, [2, 4]⟩ ⟨true, [2, 4]⟩ (by decide) (by decide)⟩

/-- C9: for every pair of `BigInt` states `a`, `b` (well-formed or not), exactly one of
`a < b`, `a == b`, `a > b` is true. -/
theorem ordering_totality (a b : BigInt) :
    (lt a b = true ∧ eq a b = false ∧ gt a b = false) ∨
    (lt a b = false ∧ eq a b = true ∧ gt a b = false) ∨
    (lt a b = false ∧ eq a b = false ∧ gt a b = true) :=
  trichotomy_aux a b

/-! ## Strings -/

theorem digitToChar_spec (d : Nat) (h : d ≤ 9) :
    charToDigit (digitToChar d) = d ∧ digitToChar d ≠ '-' ∧ digitToChar d ≠ '+' ∧
      (digitToChar d).isDigit = true := by
  interval_cases d <;> decide

theorem charToDigit_spec (c : Char) (h : c.isDigit = true) :
    digitToChar (charToDigit c) = c ∧ charToDigit c ≤ 9 ∧ c ≠ '-' ∧ c ≠ '+' := by
  have hc : c = Char.ofNat c.toNat := (Char.ofNat_toNat c).symm
  have h1 : 48 ≤ c.toNat ∧ c.toNat ≤ 57 := by
    simp only [Char.isDigit, Bool.and_eq_true, decide_eq_true_eq] at h
    exact ⟨h.1, h.2⟩
  generalize c.toNat = n at hc h1
  subst hc
  obtain ⟨h1, h2⟩ := h1
  interval_cases n <;> decide

theorem map_digitToChar_charToDigit (l : List Char) (h : ∀ c ∈ l, c.isDigit = true) :
    (l.map charToDigit).map digitToChar = l := by
  induction l with
  | nil => rfl
  | cons c cs ih =>
    simp only [List.map_cons]
    rw [(charToDigit_spec c (h c (List.mem_cons_self _ _))).1,
      ih (fun x hx => h x (List.mem_cons_of_mem _ hx))]

theorem map_charToDigit_digitToChar (l : List Nat) (h : ∀ d ∈ l, d ≤ 9) :
    (l.map digitToChar).map charToDigit = l := by
  induction l with
  | nil => rfl
  | cons d ds ih =>
    simp only [List.map_cons]
    rw [(digitToChar_spec d (h d (List.mem_cons_self _ _))).1,
      ih (fun x hx => h x (List.mem_cons_of_mem _ hx))]

theorem toString_ofString_signed (rest : List Char) (h : ∀ c ∈ rest, c.isDigit = true) :
    toString (ofString ('-' :: rest)) = '-' :: rest := by
  simp only [ofString, List.headD_cons, if_true, toString, Bool.not_false, List.drop_one,
    List.tail_cons, List.singleton_append, List.cons.injEq, true_and]
  rw [← List.map_reverse, List.reverse_reverse]
  exact map_digitToChar_charToDigit rest h

theorem toString_ofString_unsigned (s : List Char) (h : ∀ c ∈ s, c.isDigit = true) :
    toString (ofString s) = s := by
  have h1 : ¬ s.headD (Char.ofNat 0) = '-' := by
    cases s with
    | nil => decide
    | cons c cs => exact (charToDigit_spec c (h c (List.mem_cons_self _ _))).2.2.1
  have h2 : ¬ s.headD (Char.ofNat 0) = '+' := by
    cases s with
    | nil => decide
    | cons c cs => exact (charToDigit_spec c (h c (List.mem_cons_self _ _))).2.2.2
  simp only [ofString, h1, h2, if_false, toString, Bool.not_true, Bool.false_eq_true,
    List.nil_append]
  rw [← List.map_reverse, List.reverse_reverse]
  exact map_digitToChar_charToDigit s h

theorem ofString_toString_aux (a : BigInt) (h : ∀ d ∈ a.digits, d ≤ 9) :
    ofString (toString a) = a := by
  obtain ⟨sa, da⟩ := a
  have hmap : ((da.reverse.map digitToChar).reverse.map charToDigit) = da := by
    rw [← List.map_reverse, List.reverse_reverse]
    exact map_charToDigit_digitToChar da h
  cases sa
  · simp only [toString, Bool.not_false, if_true, List.singleton_append, ofString,
      List.headD_cons, List.drop_one, List.tail_cons, hmap]
  · simp only [toString, Bool.not_true, Bool.false_eq_true, if_false, List.nil_append]
    have hd : ∀ c ∈ da.reverse.map digitToChar, c.isDigit = true := by
      intro c hc
      simp only [List.mem_map, List.mem_reverse] at hc
      obtain ⟨d, hd, rfl⟩ := hc
      exact (digitToChar_spec d (h d hd)).2.2.2
    have h1 : ¬ (da.reverse.map digitToChar).headD (Char.ofNat 0) = '-' := by
      cases hl : da.reverse.map digitToChar with
      | nil => decide
      | cons c cs =>
        exact (charToDigit_spec c (hd c (by rw [hl]; exact List.mem_cons_self _ _))).2.2.1
    have h2 : ¬ (da.reverse.map digitToChar).headD (Char.ofNat 0) = '+' := by
      cases hl : da.reverse.map digitToChar with
      | nil => decide
      | cons c cs =>
        exact (charToDigit_spec c (hd c (by rw [hl]; exact List.mem_cons_self _ _))).2.2.2
    simp only [ofString, h1, h2, if_false, hmap]

/-- C5: for every canonical decimal string `s` (optional leading `-`, then at least one
digit, no leading zero unless `s` is `"0"`, not `"-0"`), rendering the `BigInt` built from
`s` gives `s` back. -/
theorem string_round_trip (s : List Char) (h : IsCanonicalString s) :
    toString (ofString s) = s := by
  obtain ⟨_, hdig, _⟩ := h
  cases s with
  | nil => exact toString_ofString_unsigned [] (by simp)
  | cons c cs =>
    by_cases hc : c = '-'
    · subst hc
      simp only [List.head?_cons, if_true, List.drop_one, List.tail_cons] at hdig
      exact toString_ofString_signed cs hdig
    · have hne : ¬ some c = some '-' := by simpa using hc
      simp only [List.head?_cons, hne, if_false] at hdig
      exact toString_ofString_unsigned (c :: cs) hdig

theorem string_round_trip_witness :
    IsCanonicalString "-1203".toList ∧
      toString (ofString "-1203".toList) = "-1203".toList :=
  ⟨by decide, string_round_trip "-1203".toList (by decide)⟩

/-- C6: for every well-formed `a`, the string constructor applied to `a.toString()` gives
`a` back, with the same sign and the same digit sequence. -/
theorem rendering_round_trip (a : BigInt) (h : WellFormed a) :
    ofString (toString a) = a ∧ (ofString (toString a)).sign = a.sign ∧
      (ofString (toString a)).digits = a.digits := by
  have := ofString_toString_aux a h.2.1
  exact ⟨this, by rw [this], by rw [this]⟩

theorem rendering_round_trip_witness :
    WellFormed ⟨false, [7, 0, 4]⟩ ∧
      (ofString (toString ⟨false, [7, 0, 4]⟩) = ⟨false, [7, 0, 4]⟩ ∧
        (ofString (toString ⟨false, [7, 0, 4]⟩)).sign = (⟨false, [7, 0, 4]⟩ : BigInt).sign ∧
        (ofString (toString ⟨false, [7, 0, 4]⟩)).digits =
          (⟨false, [7, 0, 4]⟩ : BigInt).digits) :=
  ⟨by decide, rendering_round_trip ⟨false, [7, 0, 4]⟩ (by decide)⟩

/-! ## Construction from a native integer -/

theorem toUInt8_natCast (n : Nat) (h : n < 256) : toUInt8 (n : Int) = n := by
  unfold toUInt8
  omega

theorem ofInt64Loop_natCast (n : Nat) (acc : List Nat) :
    ofInt64Loop (n : Int) acc = acc ++ Nat.digits 10 n := by
  induction n using Nat.strong_induction_on generalizing acc with
  | _ n ih =>
    rw [ofInt64Loop]
    by_cases h0 : n = 0
    · subst h0
      simp
    · have hne : (n : Int) ≠ 0 := by exact_mod_cast h0
      have hdiv : Int.tdiv (n : Int) 10 = ((n / 10 : Nat) : Int) := (Int.ofNat_tdiv n 10).symm
      have hmod : Int.tmod (n : Int) 10 = ((n % 10 : Nat) : Int) := (Int.ofNat_tmod n 10).symm
      rw [if_pos hne, hdiv, hmod, toUInt8_natCast _ (by omega),
        ih (n / 10) (Nat.div_lt_self (Nat.pos_of_ne_zero h0) (by decide)),
        Nat.digits_def' (by decide : 1 < 10) (Nat.pos_of_ne_zero h0)]
      simp

theorem ofInt64Loop_neg_natCast (n : Nat) (acc : List Nat) :
    ofInt64Loop (-(n : Int)) acc =
      acc ++ (Nat.digits 10 n).map (fun (d : Nat) => toUInt8 (-(d : Int))) := by
  induction n using Nat.strong_induction_on generalizing acc with
  | _ n ih =>
    rw [ofInt64Loop]
    by_cases h0 : n = 0
    · subst h0
      simp
    · have hne : -(n : Int) ≠ 0 := by
        have : (n : Int) ≠ 0 := by exact_mod_cast h0
        omega
      have hdiv : Int.tdiv (-(n : Int)) 10 = -((n / 10 : Nat) : Int) := by
        rw [Int.neg_tdiv]
        exact congrArg (fun z : Int => -z) (Int.ofNat_tdiv n 10).symm
      have hmod : Int.tmod (-(n : Int)) 10 = -((n % 10 : Nat) : Int) := by
        rw [Int.tmod_def, hdiv]
        omega
      rw [if_pos hne, hdiv, hmod,
        ih (n / 10) (Nat.div_lt_self (Nat.pos_of_ne_zero h0) (by decide)),
        Nat.digits_def' (by decide : 1 < 10) (Nat.pos_of_ne_zero h0)]
      simp

theorem digits_canonical (n : Nat) (h : n ≠ 0) : Canonical (Nat.digits 10 n) := by
  have hne : Nat.digits 10 n ≠ [] := Nat.digits_ne_nil_iff_ne_zero.mpr h
  refine ⟨hne, ?_, ?_⟩
  · intro d hd
    have := Nat.digits_lt_base (by decide : 1 < 10) hd
    omega
  · intro hlast
    exfalso
    have h1 := Nat.getLast_digit_ne_zero 10 h
    rw [List.getLast?_eq_getLast _ hne] at hlast
    exact h1 (Option.some.inj hlast)

theorem magnitude_digits (n : Nat) : magnitude (Nat.digits 10 n) = n := by
  rw [magnitude_eq_ofDigits, Nat.ofDigits_digits]

/-- Away from the minimum, the native-integer constructor is exact. -/
theorem ofInt64_of_ne_min (v : Int) (h : IsInt64 v) (hmin : v ≠ -(2 : Int) ^ 63) :
    ofInt64 v = ⟨decide (v ≥ 0), if v = 0 then [0] else Nat.digits 10 v.natAbs⟩ := by
  obtain ⟨h1, h2⟩ := h
  unfold ofInt64
  by_cases hv : v ≥ 0
  · simp only [hv, if_true, decide_True]
    by_cases h0 : v = 0
    · simp [h0]
    · simp only [h0, if_false]
      have hcast : v = ((v.natAbs : Nat) : Int) := by omega
      conv_lhs => rw [hcast]
      rw [ofInt64Loop_natCast]
      simp
  · have hw : wrapInt64 (-v) = -v := by
      unfold wrapInt64
      norm_num at h1 h2 hmin ⊢
      omega
    have h0 : ¬ -v = 0 := by omega
    have h0' : ¬ v = 0 := by omega
    simp only [hv, if_false, decide_False, hw, h0, h0']
    have hcast : -v = ((v.natAbs : Nat) : Int) := by omega
    rw [hcast, ofInt64Loop_natCast]
    simp

theorem ofInt64_wellFormed (v : Int) (h : IsInt64 v) (hmin : v ≠ -(2 : Int) ^ 63) :
    WellFormed (ofInt64 v) ∧ value (ofInt64 v) = v := by
  rw [ofInt64_of_ne_min v h hmin]
  by_cases h0 : v = 0
  · subst h0
    decide
  · have hn : v.natAbs ≠ 0 := by omega
    have hc := digits_canonical v.natAbs hn
    simp only [h0, if_false]
    refine ⟨⟨hc.1, hc.2.1, hc.2.2, ?_⟩, ?_⟩
    · intro hd
      exfalso
      have := magnitude_digits v.natAbs
      simp only at hd
      rw [hd] at this
      simp [magnitude] at this
      exact hn this.symm
    · simp only [value, magnitude_digits]
      by_cases hv : v ≥ 0
      · simp only [hv, decide_True, if_true]
        omega
      · simp only [hv, decide_False, Bool.false_eq_true, if_false]
        omega

theorem assignInt64_eq_ofInt64 (x : BigInt) (v : Int) (h : IsInt64 v) :
    assignInt64 x v = ofInt64 v := by
  obtain ⟨h1, h2⟩ := h
  unfold assignInt64 ofInt64
  by_cases hv : v ≥ 0
  · simp [hv]
  · simp only [hv, if_false, decide_False]
    by_cases hw : wrapInt64 (-v) = 0
    · exfalso
      unfold wrapInt64 at hw
      norm_num at h1 h2 hw
      omega
    · simp [hw]

theorem digits_two_pow_63 :
    Nat.digits 10 9223372036854775808 =
      [8, 0, 8, 5, 7, 7, 4, 5, 8, 6, 3, 0, 2, 7, 3, 3, 2, 2, 9] := by
  have h : (9223372036854775808 : Nat) =
      Nat.ofDigits 10 [8, 0, 8, 5, 7, 7, 4, 5, 8, 6, 3, 0, 2, 7, 3, 3, 2, 2, 9] := by
    simp [Nat.ofDigits]
  rw [h]
  exact Nat.digits_ofDigits 10 (by decide) _ (by decide) (by decide)

theorem ofInt64_min_eval :
    ofInt64 (-(2 : Int) ^ 63) =
      ⟨false, [248, 0, 248, 251, 249, 249, 252, 251, 248, 250, 253, 0, 254, 249, 253, 253,
        254, 254, 247]⟩ := by
  have hw : wrapInt64 (-(-(2 : Int) ^ 63)) = -((9223372036854775808 : Nat) : Int) := by decide
  have hneg : ¬ (-(2 : Int) ^ 63 ≥ 0) := by decide
  have hne : ¬ (-((9223372036854775808 : Nat) : Int) = 0) := by decide
  unfold ofInt64
  simp only [hneg, if_false, decide_False, hw, hne]
  rw [ofInt64Loop_neg_natCast, digits_two_pow_63]
  decide

/-- C10 (failing input): at the minimum `v = -2^63` the negation `value = -value` wraps back
to `-2^63`, so the digit loop runs on a negative number and stores the bytes of negative
remainders: the result has digits outside `0..9`, is not well-formed, and its digits are not
the decimal digits of `2^63`. -/
theorem ofInt64_min_not_exact :
    IsInt64 (-(2 : Int) ^ 63) ∧
      ofInt64 (-(2 : Int) ^ 63) =
        ⟨false, [248, 0, 248, 251, 249, 249, 252, 251, 248, 250, 253, 0, 254, 249, 253, 253,
          254, 254, 247]⟩ ∧
      ¬ WellFormed (ofInt64 (-(2 : Int) ^ 63)) ∧
      (ofInt64 (-(2 : Int) ^ 63)).digits ≠ Nat.digits 10 (2 ^ 63) ∧
      assignInt64 zero (-(2 : Int) ^ 63) = ofInt64 (-(2 : Int) ^ 63) := by
  refine ⟨by decide, ofInt64_min_eval, ?_, ?_, ?_⟩
  · rw [ofInt64_min_eval]
    decide
  · rw [ofInt64_min_eval]
    have h : (2 : Nat) ^ 63 = 9223372036854775808 := by norm_num
    rw [h, digits_two_pow_63]
    decide
  · exact assignInt64_eq_ofInt64 zero _ (by decide)

/-! ## Lists of digits under in-place updates -/

theorem magnitude_set (l : List Nat) (i x : Nat) (h : i < l.length) :
    magnitude (l.set i x) + l.getD i 0 * 10 ^ i = magnitude l + x * 10 ^ i := by
  induction l generalizing i with
  | nil => simp at h
  | cons d ds ih =>
    cases i with
    | zero => simp [magnitude]; omega
    | succ i =>
      simp only [List.length_cons, Nat.add_lt_add_iff_right] at h
      have := ih i h
      simp only [List.set_cons_succ, magnitude, List.getD_cons_succ, Nat.pow_succ]
      have e1 : ds.getD i 0 * (10 ^ i * 10) = 10 * (ds.getD i 0 * 10 ^ i) := by ring
      have e2 : x * (10 ^ i * 10) = 10 * (x * 10 ^ i) := by ring
      rw [e1, e2]
      omega

theorem magnitude_drop (l : List Nat) (i : Nat) :
    magnitude (l.drop i) = l.getD i 0 + 10 * magnitude (l.drop (i + 1)) := by
  induction l generalizing i with
  | nil => simp [magnitude]
  | cons d ds ih =>
    cases i with
    | zero => simp [magnitude]
    | succ i => simpa using ih i

theorem getD_le_nine (l : List Nat) (i : Nat) (h : ∀ d ∈ l, d ≤ 9) : l.getD i 0 ≤ 9 := by
  by_cases hi : i < l.length
  · rw [List.getD_eq_getElem _ _ hi]
    exact h _ (List.getElem_mem _)
  · rw [List.getD_eq_default _ _ (by omega)]
    omega

theorem set_le_nine (l : List Nat) (i x : Nat) (h : ∀ d ∈ l, d ≤ 9) (hx : x ≤ 9) :
    ∀ d ∈ l.set i x, d ≤ 9 := by
  intro d hd
  rcases List.mem_or_eq_of_mem_set hd with h1 | h1
  · exact h d h1
  · omega

/-! ## Normalisation -/

theorem trim_magnitude (l : List Nat) : magnitude (trim l) = magnitude l := by
  induction l using trim.induct with
  | case1 x hx ih =>
    rw [trim, if_pos hx, ih]
    have h := List.dropLast_append_getLast? 0 (by simpa using hx.2)
    conv_rhs => rw [← h]
    rw [magnitude_append]
    simp [magnitude]
  | case2 x hx => rw [trim, if_neg hx]

theorem trim_subset (l : List Nat) : ∀ d ∈ trim l, d ∈ l := by
  induction l using trim.induct with
  | case1 x hx ih =>
    rw [trim, if_pos hx]
    intro d hd
    exact List.mem_of_mem_dropLast (ih d hd)
  | case2 x hx =>
    rw [trim, if_neg hx]
    exact fun d hd => hd

theorem trim_ne_nil (l : List Nat) (h : l ≠ []) : trim l ≠ [] := by
  induction l using trim.induct with
  | case1 x hx ih =>
    rw [trim, if_pos hx]
    apply ih
    intro h0
    have := congrArg List.length h0
    simp only [List.length_dropLast, List.length_nil] at this
    omega
  | case2 x hx =>
    rw [trim, if_neg hx]
    exact h

theorem trim_last (l : List Nat) : (trim l).getLast? = some 0 → trim l = [0] := by
  induction l using trim.induct with
  | case1 x hx ih =>
    rw [trim, if_pos hx]
    exact ih
  | case2 x hx =>
    rw [trim, if_neg hx]
    intro h0
    have hlen : ¬ x.length > 1 := fun h => hx ⟨h, h0⟩
    match x, h0, hlen with
    | [], h0, _ => simp at h0
    | [d], h0, _ =>
      simp only [List.getLast?_singleton, Option.some.injEq] at h0
      rw [h0]
    | _ :: _ :: _, _, hlen => simp at hlen

theorem trim_canonical (l : List Nat) (hne : l ≠ []) (hd : ∀ d ∈ l, d ≤ 9) :
    Canonical (trim l) :=
  ⟨trim_ne_nil l hne, fun d h => hd d (trim_subset l d h), trim_last l⟩

theorem trim_of_canonical (l : List Nat) (h : Canonical l) : trim l = l := by
  rw [trim]
  by_cases hc : l.length > 1 ∧ l.getLast? = some 0
  · exfalso
    have := h.2.2 hc.2
    rw [this] at hc
    simp at hc
  · rw [if_neg hc]

theorem isZeroDigits_iff (l : List Nat) : isZeroDigits l = true ↔ l = [0] := by
  match l with
  | [] => simp [isZeroDigits]
  | [d] => simp [isZeroDigits]
  | _ :: _ :: _ => simp [isZeroDigits]

/-! ## Addition: the same-sign loop -/

theorem addLoop_spec (digits rhs : List Nat) (maxLength i : Nat) (carry : Bool)
    (hi : i ≤ digits.length) (hd : ∀ d ∈ digits, d ≤ 9) (hr : ∀ d ∈ rhs, d ≤ 9)
    (hm : rhs.length ≤ maxLength) :
    magnitude (addLoop digits rhs maxLength i carry) =
        magnitude digits + 10 ^ i * (carry.toNat + magnitude (rhs.drop i)) ∧
      (∀ d ∈ addLoop digits rhs maxLength i carry, d ≤ 9) ∧
      digits.length ≤ (addLoop digits rhs maxLength i carry).length := by
  induction digits, rhs, maxLength, i, carry using addLoop.induct with
  | case1 digits rhs maxLength i carry hcond digits1 sum carry1 digit ih =>
    have hunfold : addLoop digits rhs maxLength i carry =
        addLoop (digits1.set i digit) rhs maxLength (i + 1) carry1 := by
      rw [addLoop, if_pos hcond]
      rfl
    rw [hunfold]
    -- facts about the appended vector
    have hmag1 : magnitude digits1 = magnitude digits := by
      simp only [digits1]
      split
      · rw [magnitude_append]; simp [magnitude]
      · rfl
    have hlen1 : i < digits1.length ∧ digits.length ≤ digits1.length := by
      simp only [digits1]
      split
      · simp only [List.length_append, List.length_singleton]; omega
      · omega
    have hd1 : ∀ d ∈ digits1, d ≤ 9 := by
      simp only [digits1]
      split
      · intro d hmem
        rcases List.mem_append.mp hmem with h | h
        · exact hd d h
        · simp only [List.mem_singleton] at h
          omega
      · exact hd
    -- the digit sum of this position
    have hri : (if i < rhs.length then rhs.getD i 0 else 0) = rhs.getD i 0 := by
      split
      · rfl
      · rw [List.getD_eq_default _ _ (by omega)]
    have hx := getD_le_nine digits1 i hd1
    have hy := getD_le_nine rhs i hr
    have hc : carry.toNat ≤ 1 := Bool.toNat_le carry
    have hsum : sum = digits1.getD i 0 + (carry.toNat + rhs.getD i 0) := by
      simp only [sum, dite_eq_ite, hri]
      omega
    have hdigit : digit + 10 * carry1.toNat = sum ∧ digit ≤ 9 := by
      simp only [digit, carry1, dite_eq_ite]
      by_cases h10 : sum ≥ 10
      · simp only [h10, decide_True, if_true, Bool.toNat_true]
        omega
      · simp only [h10, decide_False, Bool.false_eq_true, if_false, Bool.toNat_false]
        omega
    have hd2 := set_le_nine digits1 i digit hd1 hdigit.2
    obtain ⟨ih1, ih2, ih3⟩ := ih (by rw [List.length_set]; omega) hd2 hr hm
    refine ⟨?_, ih2, ?_⟩
    · rw [ih1]
      have hset := magnitude_set digits1 i digit hlen1.1
      have hdrop := magnitude_drop rhs i
      rw [hdrop, ← hmag1, Nat.pow_succ]
      generalize magnitude (List.drop (i + 1) rhs) = R at *
      generalize 10 ^ i = P at *
      generalize magnitude (digits1.set i digit) = M2 at *
      generalize magnitude digits1 = M1 at *
      have e : digit + 10 * carry1.toNat = digits1.getD i 0 + (carry.toNat + rhs.getD i 0) := by
        rw [hdigit.1, hsum]
      generalize digits1.getD i 0 = x at *
      generalize rhs.getD i 0 = y at *
      generalize carry.toNat = c at *
      generalize carry1.toNat = c1 at *
      have e2 : P * (digit + 10 * c1) = P * (x + (c + y)) := by rw [e]
      have e3 : P * 10 * (c1 + R) + digit * P = P * (digit + 10 * c1) + 10 * (P * R) := by ring
      have e4 : P * (c + (y + 10 * R)) + x * P = P * (x + (c + y)) + 10 * (P * R) := by ring
      omega
    · rw [List.length_set] at ih3
      omega
  | case2 digits rhs maxLength i carry hcond =>
    rw [addLoop, if_neg hcond]
    have hc : carry = false := by
      cases carry
      · rfl
      · exact absurd (Or.inr rfl) hcond
    have hdrop : rhs.drop i = [] := by
      apply List.drop_eq_nil_of_le
      have : ¬ i < maxLength := fun h => hcond (Or.inl h)
      omega
    refine ⟨?_, hd, Nat.le_refl _⟩
    rw [hc, hdrop]
    simp [magnitude]

/-! ## Magnitude subtraction -/

theorem subtractAbsLoop_spec (digits rhs : List Nat) (i : Nat) (borrow : Bool)
    (hi : i ≤ digits.length) (hd : ∀ d ∈ digits, d ≤ 9) (hr : ∀ d ∈ rhs, d ≤ 9)
    (hlen : rhs.length ≤ digits.length) :
    (∃ fb : Bool, (magnitude (subtractAbsLoop digits rhs i borrow) : Int) =
        (magnitude digits : Int)
          - (10 : Int) ^ i * ((borrow.toNat : Int) + (magnitude (rhs.drop i) : Int))
          + (10 : Int) ^ digits.length * (fb.toNat : Int)) ∧
      (∀ d ∈ subtractAbsLoop digits rhs i borrow, d ≤ 9) ∧
      (subtractAbsLoop digits rhs i borrow).length = digits.length := by
  induction digits, rhs, i, borrow using subtractAbsLoop.induct with
  | case1 digits rhs i borrow hcond subtraction borrow1 subtraction1 ih =>
    have hunfold : subtractAbsLoop digits rhs i borrow =
        subtractAbsLoop (digits.set i (toUInt8 subtraction1)) rhs (i + 1) borrow1 := by
      rw [subtractAbsLoop, if_pos hcond]
      rfl
    rw [hunfold]
    have hri : (if i < rhs.length then (rhs.getD i 0 : Int) else 0) = (rhs.getD i 0 : Int) := by
      split
      · rfl
      · rw [List.getD_eq_default _ _ (by omega)]
        rfl
    have hb : (if borrow = true then (1 : Int) else 0) = (borrow.toNat : Int) := by
      cases borrow <;> rfl
    have hx := getD_le_nine digits i hd
    have hy := getD_le_nine rhs i hr
    have hc : borrow.toNat ≤ 1 := Bool.toNat_le borrow
    have hsub : subtraction = (digits.getD i 0 : Int) - (rhs.getD i 0 : Int) - (borrow.toNat : Int) := by
      simp only [subtraction, dite_eq_ite, hri, hb]
    have hsub1 : subtraction1 = subtraction + 10 * (borrow1.toNat : Int) ∧
        0 ≤ subtraction1 ∧ subtraction1 ≤ 9 := by
      simp only [subtraction1, borrow1, dite_eq_ite]
      by_cases hneg : subtraction < 0
      · simp only [hneg, decide_True, if_true, Bool.toNat_true]
        omega
      · simp only [hneg, decide_False, Bool.false_eq_true, if_false, Bool.toNat_false]
        omega
    have hcast : ((toUInt8 subtraction1 : Nat) : Int) = subtraction1 ∧ toUInt8 subtraction1 ≤ 9 := by
      unfold toUInt8
      omega
    have hd2 := set_le_nine digits i (toUInt8 subtraction1) hd hcast.2
    obtain ⟨⟨fb, ih1⟩, ih2, ih3⟩ :=
      ih (by rw [List.length_set]; omega) hd2 hr (by rw [List.length_set]; exact hlen)
    rw [List.length_set] at ih1 ih3
    refine ⟨⟨fb, ?_⟩, ih2, ih3⟩
    rw [ih1]
    have hset := magnitude_set digits i (toUInt8 subtraction1) hcond
    have hsetZ : (magnitude (digits.set i (toUInt8 subtraction1)) : Int)
        + (digits.getD i 0 : Int) * (10 : Int) ^ i
        = (magnitude digits : Int) + subtraction1 * (10 : Int) ^ i := by
      have hz := congrArg (Nat.cast : Nat → Int) hset
      push_cast at hz
      rw [hcast.1] at hz
      exact hz
    have hdrop : (magnitude (rhs.drop i) : Int) =
        (rhs.getD i 0 : Int) + 10 * (magnitude (rhs.drop (i + 1)) : Int) := by
      exact_mod_cast magnitude_drop rhs i
    rw [hdrop, pow_succ]
    have e : subtraction1 = (digits.getD i 0 : Int) - (rhs.getD i 0 : Int)
        - (borrow.toNat : Int) + 10 * (borrow1.toNat : Int) := by
      rw [hsub1.1, hsub]
    linear_combination hsetZ + (10 : Int) ^ i * e
  | case2 digits rhs i borrow hcond =>
    rw [subtractAbsLoop, if_neg hcond]
    have hieq : i = digits.length := by omega
    have hdrop : rhs.drop i = [] := List.drop_eq_nil_of_le (by omega)
    refine ⟨⟨borrow, ?_⟩, hd, rfl⟩
    rw [hdrop, hieq]
    simp [magnitude]

theorem subtractAbs_spec (a b : BigInt) (ha : WellFormed a) (hb : WellFormed b)
    (hge : magnitude b.digits ≤ magnitude a.digits) :
    magnitude (subtractAbs a b).digits + magnitude b.digits = magnitude a.digits ∧
      Canonical (subtractAbs a b).digits ∧ (subtractAbs a b).sign = a.sign := by
  have ca := ha.canonical
  have cb := hb.canonical
  have hlen : b.digits.length ≤ a.digits.length := by
    by_contra hcon
    have := ca.magnitude_lt_of_length_lt cb (by omega)
    omega
  obtain ⟨⟨fb, h1⟩, h2, h3⟩ := subtractAbsLoop_spec a.digits b.digits 0 false
    (Nat.zero_le _) ca.2.1 cb.2.1 hlen
  have hne : subtractAbsLoop a.digits b.digits 0 false ≠ [] := by
    intro h0
    rw [h0] at h3
    exact ca.1 (List.length_eq_zero.mp h3.symm)
  have hbound := magnitude_lt_pow _ h2
  rw [h3] at hbound
  simp only [pow_zero, Bool.toNat_false, Nat.cast_zero, zero_add, one_mul, List.drop_zero] at h1
  have hfb : fb = false := by
    cases fb
    · rfl
    · exfalso
      simp only [Bool.toNat_true, Nat.cast_one, mul_one] at h1
      have hz : (magnitude (subtractAbsLoop a.digits b.digits 0 false) : Int) <
          (10 : Int) ^ a.digits.length := by exact_mod_cast hbound
      have hgeZ : (magnitude b.digits : Int) ≤ (magnitude a.digits : Int) := by
        exact_mod_cast hge
      omega
  rw [hfb] at h1
  simp only [Bool.toNat_false, Nat.cast_zero, mul_zero, add_zero] at h1
  refine ⟨?_, ?_, rfl⟩
  · simp only [subtractAbs, trim_magnitude]
    omega
  · exact trim_canonical _ hne h2

/-! ## Negation and the absolute-value comparison -/

theorem value_zero_digits (s : Bool) : value ⟨s, [0]⟩ = 0 := by
  cases s <;> simp [value, magnitude]

theorem neg_spec (a : BigInt) (ha : WellFormed a) :
    WellFormed (neg a) ∧ value (neg a) = -value a ∧ (neg a).digits = a.digits ∧
      (neg a).sign = (if a.digits = [0] then true else !a.sign) := by
  obtain ⟨sa, da⟩ := a
  unfold neg
  by_cases hz : isZeroDigits da = true
  · have hd : da = [0] := (isZeroDigits_iff da).mp hz
    have hs : sa = true := ha.2.2.2 hd
    subst hd
    subst hs
    simp only [hz, if_true]
    refine ⟨ha, ?_, ?_, ?_⟩ <;> simp [value, magnitude]
  · have hd : ¬ da = [0] := fun h => hz ((isZeroDigits_iff da).mpr h)
    simp only [hz, Bool.false_eq_true, if_false]
    refine ⟨⟨ha.1, ha.2.1, ha.2.2.1, fun h => absurd h hd⟩, ?_, ?_, ?_⟩
    · cases sa <;> simp [value]
    · simp
    · simp [hd]

theorem isAbsGreaterOrEqual_iff (a b : BigInt) (ha : WellFormed a) (hb : WellFormed b)
    (hs : a.sign ≠ b.sign) :
    isAbsGreaterOrEqual a b = true ↔ magnitude b.digits ≤ magnitude a.digits := by
  have na := neg_spec a ha
  have nb := neg_spec b hb
  unfold isAbsGreaterOrEqual ge
  by_cases hsa : a.sign = true
  · have hsb : b.sign = false := by
      cases h : b.sign
      · rfl
      · exact absurd (hsa.trans h.symm) hs
    simp only [hsa, if_true, Bool.not_eq_true', ← Bool.not_eq_true]
    rw [lt_iff_value_lt a (neg b) ha nb.1, nb.2.1]
    simp only [value, hsa, hsb, if_true, Bool.false_eq_true, if_false, neg_neg, Nat.cast_lt,
      not_lt]
  · have hsa' : a.sign = false := by
      cases h : a.sign
      · rfl
      · exact absurd h hsa
    have hsb : b.sign = true := by
      cases h : b.sign
      · exact absurd (hsa'.trans h.symm) hs
      · rfl
    simp only [hsa', Bool.false_eq_true, if_false, Bool.not_eq_true', ← Bool.not_eq_true]
    rw [lt_iff_value_lt (neg a) b na.1 hb, na.2.1]
    simp only [value, hsa', hsb, if_true, Bool.false_eq_true, if_false, neg_neg, Nat.cast_lt,
      not_lt]

/-! ## The closing normalisation of `+=` and `*=` -/

theorem normalize_spec (s : Bool) (l : List Nat) (hne : l ≠ []) (hd : ∀ d ∈ l, d ≤ 9) :
    WellFormed (if isZeroDigits (trim l) then ⟨true, trim l⟩ else ⟨s, trim l⟩) ∧
      value (if isZeroDigits (trim l) then ⟨true, trim l⟩ else ⟨s, trim l⟩) = value ⟨s, l⟩ := by
  have hc := trim_canonical l hne hd
  have hm := trim_magnitude l
  by_cases hz : isZeroDigits (trim l) = true
  · have h0 : trim l = [0] := (isZeroDigits_iff _).mp hz
    simp only [hz, if_true]
    refine ⟨⟨hc.1, hc.2.1, hc.2.2, fun _ => rfl⟩, ?_⟩
    rw [h0] at hm
    simp only [magnitude, mul_zero, add_zero] at hm
    cases s <;> simp [value, h0, magnitude, ← hm]
  · have h0 : ¬ trim l = [0] := fun h => hz ((isZeroDigits_iff _).mpr h)
    simp only [hz, Bool.false_eq_true, if_false]
    refine ⟨⟨hc.1, hc.2.1, hc.2.2, fun h => absurd h h0⟩, ?_⟩
    simp only [value, hm]

/-! ## Addition and subtraction -/

theorem addAssign_spec (a b : BigInt) (ha : WellFormed a) (hb : WellFormed b) :
    WellFormed (addAssign a b) ∧ value (addAssign a b) = value a + value b := by
  have ca := ha.canonical
  have cb := hb.canonical
  unfold addAssign
  simp only []
  by_cases hs : a.sign ≠ b.sign
  · rw [if_pos hs]
    by_cases hge : isAbsGreaterOrEqual a b = true
    · have hmag := (isAbsGreaterOrEqual_iff a b ha hb hs).mp hge
      obtain ⟨h1, h2, h3⟩ := subtractAbs_spec a b ha hb hmag
      rw [if_pos hge]
      have hn := normalize_spec (subtractAbs a b).sign (subtractAbs a b).digits h2.1 h2.2.1
      refine ⟨hn.1, ?_⟩
      rw [hn.2]
      have hsb : b.sign = !a.sign := by
        cases hA : a.sign <;> cases hB : b.sign <;> simp_all
      simp only [value, h3, hsb]
      cases a.sign <;> simp <;> omega
    · have hmag : magnitude a.digits ≤ magnitude b.digits := by
        have := (isAbsGreaterOrEqual_iff a b ha hb hs).not.mp hge
        omega
      obtain ⟨h1, h2, h3⟩ := subtractAbs_spec b a hb ha hmag
      rw [if_neg hge]
      have hn := normalize_spec b.sign (subtractAbs b a).digits h2.1 h2.2.1
      refine ⟨hn.1, ?_⟩
      rw [hn.2]
      have hsb : b.sign = !a.sign := by
        cases hA : a.sign <;> cases hB : b.sign <;> simp_all
      simp only [value, hsb]
      cases a.sign <;> simp <;> omega
  · have hs' : a.sign = b.sign := by
      by_contra h
      exact hs h
    rw [if_neg hs]
    obtain ⟨h1, h2, h3⟩ := addLoop_spec a.digits b.digits
      (max a.digits.length b.digits.length) 0 false (Nat.zero_le _) ca.2.1 cb.2.1
      (Nat.le_max_right _ _)
    have hne : addLoop a.digits b.digits (max a.digits.length b.digits.length) 0 false ≠ [] := by
      intro h0
      rw [h0] at h3
      exact ca.1 (List.length_eq_zero.mp (Nat.le_zero.mp h3))
    have hn := normalize_spec a.sign _ hne h2
    refine ⟨hn.1, ?_⟩
    rw [hn.2]
    simp only [pow_zero, Bool.toNat_false, zero_add, List.drop_zero, one_mul] at h1
    simp only [value, h1, ← hs']
    cases a.sign
    · simp only [Bool.false_eq_true, if_false]
      push_cast
      omega
    · simp only [if_true]
      push_cast
      omega

/-! ## Multiplication -/

theorem mulInner_value (result : List Nat) (ai : Nat) (rhs : List Nat) (i j carry : Nat)
    (r : List Nat) (h : mulInner result ai rhs i j carry = some r) :
    magnitude r = magnitude result + 10 ^ (i + j) * (carry + ai * magnitude (rhs.drop j)) ∧
      r.length = result.length := by
  induction result, ai, rhs, i, j, carry using mulInner.induct with
  | case1 result ai rhs i j carry hcond hin current ih =>
    have hunfold : mulInner result ai rhs i j carry =
        mulInner (result.set (i + j) (current % 10)) ai rhs i (j + 1) (current / 10) := by
      rw [mulInner, if_pos hcond, if_pos hin]
      rfl
    rw [hunfold] at h
    obtain ⟨ih1, ih2⟩ := ih h
    rw [List.length_set] at ih2
    refine ⟨?_, ih2⟩
    have hrj : (if j < rhs.length then rhs.getD j 0 else 0) = rhs.getD j 0 := by
      split
      · rfl
      · rw [List.getD_eq_default _ _ (by omega)]
    have hcur : current = result.getD (i + j) 0 + ai * rhs.getD j 0 + carry := by
      simp only [current, dite_eq_ite, hrj]
    have hdm : 10 * (current / 10) + current % 10 = current := Nat.div_add_mod current 10
    have hset := magnitude_set result (i + j) (current % 10) hin
    have hdrop := magnitude_drop rhs j
    rw [hdrop]
    have hp : 10 ^ (i + (j + 1)) = 10 ^ (i + j) * 10 := by rw [← Nat.add_assoc, Nat.pow_succ]
    rw [hp] at ih1
    generalize magnitude (List.drop (j + 1) rhs) = R at *
    generalize 10 ^ (i + j) = P at *
    generalize magnitude (result.set (i + j) (current % 10)) = Ms at *
    generalize result.getD (i + j) 0 = x at *
    generalize rhs.getD j 0 = y at *
    generalize current / 10 = q at *
    generalize current % 10 = m at *
    generalize magnitude result = M at *
    generalize magnitude r = Mr at *
    have hdm2 : 10 * q + m = x + ai * y + carry := hdm.trans hcur
    zify at ih1 hset hdm2 ⊢
    linear_combination ih1 + hset + (P : Int) * hdm2
  | case2 result ai rhs i j carry hcond hin =>
    rw [mulInner, if_pos hcond, if_neg hin] at h
    cases h
  | case3 result ai rhs i j carry hcond =>
    rw [mulInner, if_neg hcond] at h
    cases h
    have hj : ¬ j < rhs.length := fun hlt => hcond (Or.inl hlt)
    have hc : carry = 0 := by
      by_contra hne
      exact hcond (Or.inr hne)
    have hdrop : rhs.drop j = [] := List.drop_eq_nil_of_le (by omega)
    rw [hdrop, hc]
    simp [magnitude]

theorem mulInner_some (result : List Nat) (ai : Nat) (rhs : List Nat) (i j carry : Nat)
    (hd : ∀ d ∈ result, d ≤ 9) (hr : ∀ d ∈ rhs, d ≤ 9) (hai : ai ≤ 9)
    (hb : i + rhs.length < result.length)
    (hj : j ≤ rhs.length → carry ≤ 9 ∧ result.getD (i + rhs.length) 0 = 0)
    (hj' : rhs.length < j → carry = 0) :
    ∃ r, mulInner result ai rhs i j carry = some r ∧ (∀ d ∈ r, d ≤ 9) ∧
      ∀ k, i + rhs.length < k → r.getD k 0 = result.getD k 0 := by
  induction result, ai, rhs, i, j, carry using mulInner.induct with
  | case1 result ai rhs i j carry hcond hin current ih =>
    have hunfold : mulInner result ai rhs i j carry =
        mulInner (result.set (i + j) (current % 10)) ai rhs i (j + 1) (current / 10) := by
      rw [mulInner, if_pos hcond, if_pos hin]
      rfl
    rw [hunfold]
    have hjle : j ≤ rhs.length := by
      by_contra hgt
      have hc := hj' (by omega)
      rcases hcond with h1 | h1
      · omega
      · exact h1 hc
    obtain ⟨hc9, hz⟩ := hj hjle
    have hx := getD_le_nine result (i + j) hd
    have hy := getD_le_nine rhs j hr
    have hprod : ai * rhs.getD j 0 ≤ 81 := Nat.mul_le_mul hai hy
    have hcur : current ≤ 99 ∧ (j = rhs.length → current ≤ 9) := by
      simp only [current, dite_eq_ite]
      constructor
      · split <;> omega
      · intro hjn
        have hnot : ¬ j < rhs.length := by omega
        rw [if_neg hnot, hjn, hz]
        omega
    have hm : current % 10 ≤ 9 := by omega
    have hd2 := set_le_nine result (i + j) (current % 10) hd hm
    obtain ⟨r, h1, h2, h3⟩ := ih hd2 hr hai (by rw [List.length_set]; exact hb)
      (by
        intro hle
        constructor
        · omega
        · rw [List.getD_eq_getElem?_getD, List.getElem?_set_ne (by omega),
            ← List.getD_eq_getElem?_getD]
          exact hz)
      (by
        intro hlt
        have hjn : j = rhs.length := by omega
        have := hcur.2 hjn
        omega)
    refine ⟨r, h1, h2, ?_⟩
    intro k hk
    rw [h3 k hk, List.getD_eq_getElem?_getD, List.getElem?_set_ne (by omega),
      ← List.getD_eq_getElem?_getD]
  | case2 result ai rhs i j carry hcond hin =>
    exfalso
    have hgt : rhs.length < j := by omega
    have hc := hj' hgt
    rcases hcond with h1 | h1
    · omega
    · exact h1 hc
  | case3 result ai rhs i j carry hcond =>
    rw [mulInner, if_neg hcond]
    exact ⟨result, rfl, hd, fun _ _ => rfl⟩

theorem mulOuter_spec (result lhs rhs : List Nat) (i : Nat)
    (hd : ∀ d ∈ result, d ≤ 9) (hl : ∀ d ∈ lhs, d ≤ 9) (hr : ∀ d ∈ rhs, d ≤ 9)
    (hlen : result.length = lhs.length + rhs.length)
    (hz : ∀ k, i + rhs.length ≤ k → result.getD k 0 = 0) :
    ∃ r, mulOuter result lhs rhs i = some r ∧
      magnitude r = magnitude result + 10 ^ i * (magnitude (lhs.drop i) * magnitude rhs) ∧
      (∀ d ∈ r, d ≤ 9) ∧ r.length = lhs.length + rhs.length := by
  generalize hn : lhs.length - i = n
  induction n generalizing result i with
  | zero =>
    have hi : ¬ i < lhs.length := by omega
    rw [mulOuter, if_neg hi]
    refine ⟨result, rfl, ?_, hd, hlen⟩
    rw [List.drop_eq_nil_of_le (by omega)]
    simp [magnitude]
  | succ n ih =>
    have hi : i < lhs.length := by omega
    obtain ⟨r1, h1, h2, h3⟩ := mulInner_some result (lhs.getD i 0) rhs i 0 0 hd hr
      (getD_le_nine lhs i hl) (by omega)
      (fun _ => ⟨Nat.zero_le _, hz _ (Nat.le_refl _)⟩) (fun _ => rfl)
    obtain ⟨hv, hlen1⟩ := mulInner_value result (lhs.getD i 0) rhs i 0 0 r1 h1
    obtain ⟨r, g1, g2, g3, g4⟩ := ih r1 (i + 1) h2 (by rw [hlen1]; exact hlen)
      (by
        intro k hk
        rw [h3 k (by omega)]
        exact hz k (by omega))
      (by omega)
    rw [mulOuter, if_pos hi]
    simp only [h1]
    refine ⟨r, g1, ?_, g3, g4⟩
    rw [g2, hv, magnitude_drop lhs i]
    simp only [Nat.add_zero, Nat.zero_add, List.drop_zero, Nat.pow_succ]
    ring

theorem magnitude_replicate_zero (n : Nat) : magnitude (List.replicate n 0) = 0 := by
  induction n with
  | zero => rfl
  | succ n ih => simp [List.replicate_succ, magnitude, ih]

theorem mulAssign_spec (a b : BigInt) (ha : WellFormed a) (hb : WellFormed b) :
    ∃ r, mulAssign a b = some r ∧ WellFormed r ∧ value r = value a * value b ∧
      r.sign = (if r.digits = [0] then true else !(xor a.sign b.sign)) := by
  have ca := ha.canonical
  have cb := hb.canonical
  obtain ⟨ds, h1, h2, h3, h4⟩ := mulOuter_spec
    (List.replicate (a.digits.length + b.digits.length) 0) a.digits b.digits 0
    (by
      intro d hmem
      rw [(List.mem_replicate.mp hmem).2]
      omega)
    ca.2.1 cb.2.1 (by simp)
    (by
      intro k _
      by_cases hk : k < a.digits.length + b.digits.length
      · rw [List.getD_eq_getElem _ _ (by simpa using hk)]
        simp
      · rw [List.getD_eq_default _ _ (by simpa using hk)])
  have hne : ds ≠ [] := by
    intro h0
    rw [h0] at h4
    have := List.length_pos.mpr ca.1
    simp only [List.length_nil] at h4
    omega
  have hn := normalize_spec (!(xor a.sign b.sign)) ds hne h3
  simp only [magnitude_replicate_zero, Nat.zero_add, pow_zero, one_mul, List.drop_zero] at h2
  unfold mulAssign
  simp only [h1]
  by_cases hzero : isZeroDigits (trim ds) = true
  · simp only [hzero, if_true] at hn ⊢
    refine ⟨_, rfl, hn.1, ?_, ?_⟩
    · rw [hn.2]
      simp only [value, h2]
      cases a.sign <;> cases b.sign <;> simp
    · simp [(isZeroDigits_iff _).mp hzero]
  · have hnz : ¬ trim ds = [0] := fun h => hzero ((isZeroDigits_iff _).mpr h)
    simp only [hzero, Bool.false_eq_true, if_false] at hn ⊢
    refine ⟨_, rfl, hn.1, ?_, ?_⟩
    · rw [hn.2]
      simp only [value, h2]
      cases a.sign <;> cases b.sign <;> simp
    · simp [hnz]

/-! ## Arithmetic contracts -/

theorem wellFormed_zero : WellFormed zero := by decide

theorem WellFormed.eq_zero_of_value {r : BigInt} (h : WellFormed r) (hv : value r = 0) :
    r = zero :=
  h.eq_of_value_eq wellFormed_zero (by rw [hv]; rfl)

/-- C1: for well-formed `a` and `b`, the value of `a + b`, and of `a` after `a += b`, is
`value a + value b`; both the same-sign carry path and the different-sign path that
subtracts the smaller magnitude from the larger are covered. -/
theorem add_computes_sum (a b : BigInt) (ha : WellFormed a) (hb : WellFormed b) :
    value (add a b) = value a + value b ∧ value (addAssign a b) = value a + value b :=
  ⟨(addAssign_spec a b ha hb).2, (addAssign_spec a b ha hb).2⟩

theorem add_computes_sum_witness :
    WellFormed ⟨true, [4, 3, 2]⟩ ∧ WellFormed ⟨false, [6, 5, 5]⟩ ∧
      (value (add ⟨true, [4, 3, 2]⟩ ⟨false, [6, 5, 5]⟩) =
          value ⟨true, [4, 3, 2]⟩ + value ⟨false, [6, 5, 5]⟩ ∧
        value (addAssign ⟨true, [4, 3, 2]⟩ ⟨false, [6, 5, 5]⟩) =
          value ⟨true, [4, 3, 2]⟩ + value ⟨false, [6, 5, 5]⟩) :=
  ⟨by decide, by decide,
    add_computes_sum ⟨true, [4, 3, 2]⟩ ⟨false, [6, 5, 5]⟩ (by decide) (by decide)⟩

/-- C2: for well-formed `a` and `b`, `a * b` produces a result whose value is
`value a * value b`; a nonzero product is non-negative exactly when the operand signs are
equal, and a zero product has `sign = true` whatever the operand signs are. -/
theorem mul_computes_product (a b : BigInt) (ha : WellFormed a) (hb : WellFormed b) :
    ∃ r, mul a b = some r ∧ value r = value a * value b ∧
      (value r ≠ 0 → (r.sign = true ↔ a.sign = b.sign)) ∧ (value r = 0 → r.sign = true) := by
  obtain ⟨r, h1, h2, h3, h4⟩ := mulAssign_spec a b ha hb
  refine ⟨r, h1, h3, ?_, ?_⟩
  · intro hne
    have hd : ¬ r.digits = [0] := by
      intro h0
      apply hne
      obtain ⟨s, d⟩ := r
      simp only at h0
      rw [h0]
      exact value_zero_digits s
    rw [h4, if_neg hd]
    cases a.sign <;> cases b.sign <;> simp
  · intro hv
    rw [h2.eq_zero_of_value hv]
    rfl

theorem mul_computes_product_witness :
    WellFormed ⟨true, [2, 1]⟩ ∧ WellFormed ⟨false, [5, 3]⟩ ∧
      ∃ r, mul ⟨true, [2, 1]⟩ ⟨false, [5, 3]⟩ = some r ∧
        value r = value ⟨true, [2, 1]⟩ * value ⟨false, [5, 3]⟩ ∧
        (value r ≠ 0 → (r.sign = true ↔
          (⟨true, [2, 1]⟩ : BigInt).sign = (⟨false, [5, 3]⟩ : BigInt).sign)) ∧
        (value r = 0 → r.sign = true) :=
  ⟨by decide, by decide,
    mul_computes_product ⟨true, [2, 1]⟩ ⟨false, [5, 3]⟩ (by decide) (by decide)⟩

/-- C3: for well-formed `a` and `b`, `a - b` is `a + (-b)` and its value is
`value a - value b`. -/
theorem sub_computes_difference (a b : BigInt) (ha : WellFormed a) (hb : WellFormed b) :
    sub a b = add a (neg b) ∧ value (sub a b) = value a - value b := by
  have hn := neg_spec b hb
  refine ⟨rfl, ?_⟩
  show value (addAssign a (neg b)) = value a - value b
  rw [(addAssign_spec a (neg b) ha hn.1).2, hn.2.1]
  omega

theorem sub_computes_difference_witness :
    WellFormed ⟨true, [0, 0, 1]⟩ ∧ WellFormed ⟨true, [1]⟩ ∧
      (sub ⟨true, [0, 0, 1]⟩ ⟨true, [1]⟩ = add ⟨true, [0, 0, 1]⟩ (neg ⟨true, [1]⟩) ∧
        value (sub ⟨true, [0, 0, 1]⟩ ⟨true, [1]⟩) =
          value ⟨true, [0, 0, 1]⟩ - value ⟨true, [1]⟩) :=
  ⟨by decide, by decide,
    sub_computes_difference ⟨true, [0, 0, 1]⟩ ⟨true, [1]⟩ (by decide) (by decide)⟩

/-- C4: for well-formed `a` and `b`, each of `a + b`, `a - b`, `a * b` and `-a` is again
well-formed (digits non-empty, every digit in `0..9`, no most-significant zero unless the
digits are `[0]`, `sign = true` when the digits are `[0]`); a result that is mathematically
zero is the single digit `0` with positive sign. -/
theorem arithmetic_preserves_invariants (a b : BigInt) (ha : WellFormed a)
    (hb : WellFormed b) :
    (WellFormed (add a b) ∧ (value a + value b = 0 → add a b = zero)) ∧
    (WellFormed (sub a b) ∧ (value a - value b = 0 → sub a b = zero)) ∧
    (∃ r, mul a b = some r ∧ WellFormed r ∧ (value a * value b = 0 → r = zero)) ∧
    (WellFormed (neg a) ∧ (value a = 0 → neg a = zero)) := by
  have hadd := addAssign_spec a b ha hb
  have hnb := neg_spec b hb
  have hsub := addAssign_spec a (neg b) ha hnb.1
  have hna := neg_spec a ha
  obtain ⟨r, m1, m2, m3, _⟩ := mulAssign_spec a b ha hb
  refine ⟨⟨hadd.1, ?_⟩, ⟨hsub.1, ?_⟩, ⟨r, m1, m2, ?_⟩, ⟨hna.1, ?_⟩⟩
  · intro h0
    exact hadd.1.eq_zero_of_value (by rw [hadd.2, h0])
  · intro h0
    apply hsub.1.eq_zero_of_value
    rw [hsub.2, hnb.2.1]
    omega
  · intro h0
    exact m2.eq_zero_of_value (by rw [m3, h0])
  · intro h0
    apply hna.1.eq_zero_of_value
    rw [hna.2.1, h0]
    rfl

theorem arithmetic_preserves_invariants_witness :
    WellFormed ⟨false, [9, 9]⟩ ∧ WellFormed ⟨true, [9, 9]⟩ ∧
      ((WellFormed (add ⟨false, [9, 9]⟩ ⟨true, [9, 9]⟩) ∧
        (value ⟨false, [9, 9]⟩ + value ⟨true, [9, 9]⟩ = 0 →
          add ⟨false, [9, 9]⟩ ⟨true, [9, 9]⟩ = zero)) ∧
      (WellFormed (sub ⟨false, [9, 9]⟩ ⟨true, [9, 9]⟩) ∧
        (value ⟨false, [9, 9]⟩ - value ⟨true, [9, 9]⟩ = 0 →
          sub ⟨false, [9, 9]⟩ ⟨true, [9, 9]⟩ = zero)) ∧
      (∃ r, mul ⟨false, [9, 9]⟩ ⟨true, [9, 9]⟩ = some r ∧ WellFormed r ∧
        (value ⟨false, [9, 9]⟩ * value ⟨true, [9, 9]⟩ = 0 → r = zero)) ∧
      (WellFormed (neg ⟨false, [9, 9]⟩) ∧
        (value ⟨false, [9, 9]⟩ = 0 → neg ⟨false, [9, 9]⟩ = zero))) :=
  ⟨by decide, by decide,
    arithmetic_preserves_invariants ⟨false, [9, 9]⟩ ⟨true, [9, 9]⟩ (by decide) (by decide)⟩

/-! ## Algebraic laws -/

theorem eq_eq_true_iff (a b : BigInt) : eq a b = true ↔ a = b := by
  obtain ⟨sa, da⟩ := a
  obtain ⟨sb, db⟩ := b
  simp only [eq, ne_eq, mk.injEq]
  by_cases hs : sa = sb
  · by_cases hd : da = db
    · simp [hs, hd]
    · simp [hs, hd]
  · simp [hs]

theorem value_zero : value zero = 0 := by
  simp [zero, value, magnitude]

theorem add_comm_aux (a b : BigInt) (ha : WellFormed a) (hb : WellFormed b) :
    add a b = add b a := by
  have h1 := addAssign_spec a b ha hb
  have h2 := addAssign_spec b a hb ha
  apply h1.1.eq_of_value_eq h2.1
  rw [h1.2, h2.2]
  omega

theorem add_assoc_aux (a b c : BigInt) (ha : WellFormed a) (hb : WellFormed b)
    (hc : WellFormed c) : add (add a b) c = add a (add b c) := by
  have hab := addAssign_spec a b ha hb
  have hbc := addAssign_spec b c hb hc
  have h1 := addAssign_spec (addAssign a b) c hab.1 hc
  have h2 := addAssign_spec a (addAssign b c) ha hbc.1
  apply h1.1.eq_of_value_eq h2.1
  rw [h1.2, h2.2, hab.2, hbc.2]
  omega

theorem add_zero_aux (a : BigInt) (ha : WellFormed a) : add a zero = a ∧ add zero a = a := by
  have h1 := addAssign_spec a zero ha wellFormed_zero
  have h2 := addAssign_spec zero a wellFormed_zero ha
  constructor
  · apply h1.1.eq_of_value_eq ha
    rw [h1.2, value_zero]
    omega
  · apply h2.1.eq_of_value_eq ha
    rw [h2.2, value_zero]
    omega

theorem sub_self_aux (a : BigInt) (ha : WellFormed a) : sub a a = zero := by
  have hn := neg_spec a ha
  have h1 := addAssign_spec a (neg a) ha hn.1
  apply h1.1.eq_zero_of_value
  rw [h1.2, hn.2.1]
  omega

/-- C13: for every well-formed `a`, `a + BigInt() == a` and `BigInt() + a == a`, with the
same sign and the same digit sequence as `a`. -/
theorem additive_identity (a : BigInt) (ha : WellFormed a) :
    (eq (add a zero) a = true ∧ (add a zero).sign = a.sign ∧
      (add a zero).digits = a.digits) ∧
    (eq (add zero a) a = true ∧ (add zero a).sign = a.sign ∧
      (add zero a).digits = a.digits) := by
  obtain ⟨h1, h2⟩ := add_zero_aux a ha
  rw [h1, h2]
  exact ⟨⟨(eq_eq_true_iff a a).mpr rfl, rfl, rfl⟩, ⟨(eq_eq_true_iff a a).mpr rfl, rfl, rfl⟩⟩

theorem additive_identity_witness :
    WellFormed ⟨false, [0, 9, 1]⟩ ∧
      ((eq (add ⟨false, [0, 9, 1]⟩ zero) ⟨false, [0, 9, 1]⟩ = true ∧
        (add ⟨false, [0, 9, 1]⟩ zero).sign = (⟨false, [0, 9, 1]⟩ : BigInt).sign ∧
        (add ⟨false, [0, 9, 1]⟩ zero).digits = (⟨false, [0, 9, 1]⟩ : BigInt).digits) ∧
      (eq (add zero ⟨false, [0, 9, 1]⟩) ⟨false, [0, 9, 1]⟩ = true ∧
        (add zero ⟨false, [0, 9, 1]⟩).sign = (⟨false, [0, 9, 1]⟩ : BigInt).sign ∧
        (add zero ⟨false, [0, 9, 1]⟩).digits = (⟨false, [0, 9, 1]⟩ : BigInt).digits)) :=
  ⟨by decide, additive_identity ⟨false, [0, 9, 1]⟩ (by decide)⟩

/-- C14: for every well-formed `a`, positive, negative or zero, `a - a` has `sign = true`
and `digits = [0]`. -/
theorem self_subtraction_is_zero (a : BigInt) (ha : WellFormed a) :
    (sub a a).sign = true ∧ (sub a a).digits = [0] := by
  rw [sub_self_aux a ha]
  exact ⟨rfl, rfl⟩

theorem self_subtraction_is_zero_witness :
    WellFormed ⟨false, [5, 2, 8]⟩ ∧
      ((sub ⟨false, [5, 2, 8]⟩ ⟨false, [5, 2, 8]⟩).sign = true ∧
        (sub ⟨false, [5, 2, 8]⟩ ⟨false, [5, 2, 8]⟩).digits = [0]) :=
  ⟨by decide, self_subtraction_is_zero ⟨false, [5, 2, 8]⟩ (by decide)⟩

/-- C15: for all well-formed `a` and `b`, whatever their signs and digit counts,
`a + b == b + a`, with the same sign and the same digit sequence. -/
theorem add_commutative (a b : BigInt) (ha : WellFormed a) (hb : WellFormed b) :
    eq (add a b) (add b a) = true ∧ (add a b).sign = (add b a).sign ∧
      (add a b).digits = (add b a).digits := by
  rw [add_comm_aux a b ha hb]
  exact ⟨(eq_eq_true_iff _ _).mpr rfl, rfl, rfl⟩

theorem add_commutative_witness :
    WellFormed ⟨true, [7]⟩ ∧ WellFormed ⟨false, [0, 0, 1]⟩ ∧
      (eq (add ⟨true, [7]⟩ ⟨false, [0, 0, 1]⟩) (add ⟨false, [0, 0, 1]⟩ ⟨true, [7]⟩) = true ∧
        (add ⟨true, [7]⟩ ⟨false, [0, 0, 1]⟩).sign =
          (add ⟨false, [0, 0, 1]⟩ ⟨true, [7]⟩).sign ∧
        (add ⟨true, [7]⟩ ⟨false, [0, 0, 1]⟩).digits =
          (add ⟨false, [0, 0, 1]⟩ ⟨true, [7]⟩).digits) :=
  ⟨by decide, by decide,
    add_commutative ⟨true, [7]⟩ ⟨false, [0, 0, 1]⟩ (by decide) (by decide)⟩

/-- C16: for all well-formed `a`, `b` and `c`, mixed signs included,
`(a + b) + c == a + (b + c)`, with the same sign and the same digit sequence. -/
theorem add_associative (a b c : BigInt) (ha : WellFormed a) (hb : WellFormed b)
    (hc : WellFormed c) :
    eq (add (add a b) c) (add a (add b c)) = true ∧
      (add (add a b) c).sign = (add a (add b c)).sign ∧
      (add (add a b) c).digits = (add a (add b c)).digits := by
  rw [add_assoc_aux a b c ha hb hc]
  exact ⟨(eq_eq_true_iff _ _).mpr rfl, rfl, rfl⟩

theorem add_associative_witness :
    WellFormed ⟨true, [9, 9]⟩ ∧ WellFormed ⟨false, [1]⟩ ∧ WellFormed ⟨false, [8, 9]⟩ ∧
      (eq (add (add ⟨true, [9, 9]⟩ ⟨false, [1]⟩) ⟨false, [8, 9]⟩)
          (add ⟨true, [9, 9]⟩ (add ⟨false, [1]⟩ ⟨false, [8, 9]⟩)) = true ∧
        (add (add ⟨true, [9, 9]⟩ ⟨false, [1]⟩) ⟨false, [8, 9]⟩).sign =
          (add ⟨true, [9, 9]⟩ (add ⟨false, [1]⟩ ⟨false, [8, 9]⟩)).sign ∧
        (add (add ⟨true, [9, 9]⟩ ⟨false, [1]⟩) ⟨false, [8, 9]⟩).digits =
          (add ⟨true, [9, 9]⟩ (add ⟨false, [1]⟩ ⟨false, [8, 9]⟩)).digits) :=
  ⟨by decide, by decide, by decide,
    add_associative ⟨true, [9, 9]⟩ ⟨false, [1]⟩ ⟨false, [8, 9]⟩
      (by decide) (by decide) (by decide)⟩

/-- C17: for every well-formed `a`, `-a` has the digit sequence of `a`; its sign is flipped
when `a` is nonzero and stays `true` when `a` is zero; `value (-a) = -value a`; and
`-(-a) == a`. -/
theorem unary_negation (a : BigInt) (ha : WellFormed a) :
    (neg a).digits = a.digits ∧
      (value a ≠ 0 → (neg a).sign = !a.sign) ∧
      (value a = 0 → (neg a).sign = true) ∧
      value (neg a) = -value a ∧
      eq (neg (neg a)) a = true := by
  obtain ⟨h1, h2, h3, h4⟩ := neg_spec a ha
  refine ⟨h3, ?_, ?_, h2, ?_⟩
  · intro hne
    have hd : ¬ a.digits = [0] := by
      intro h0
      apply hne
      obtain ⟨s, d⟩ := a
      simp only at h0
      rw [h0]
      exact value_zero_digits s
    rw [h4, if_neg hd]
  · intro hz
    have hd : a.digits = [0] := by rw [ha.eq_zero_of_value hz]; rfl
    rw [h4, if_pos hd]
  · rw [eq_eq_true_iff]
    apply (neg_spec (neg a) h1).1.eq_of_value_eq ha
    rw [(neg_spec (neg a) h1).2.1, h2]
    omega

theorem unary_negation_witness :
    WellFormed ⟨true, [3, 4]⟩ ∧
      ((neg ⟨true, [3, 4]⟩).digits = (⟨true, [3, 4]⟩ : BigInt).digits ∧
        (value ⟨true, [3, 4]⟩ ≠ 0 →
          (neg ⟨true, [3, 4]⟩).sign = !(⟨true, [3, 4]⟩ : BigInt).sign) ∧
        (value ⟨true, [3, 4]⟩ = 0 → (neg ⟨true, [3, 4]⟩).sign = true) ∧
        value (neg ⟨true, [3, 4]⟩) = -value ⟨true, [3, 4]⟩ ∧
        eq (neg (neg ⟨true, [3, 4]⟩)) ⟨true, [3, 4]⟩ = true) :=
  ⟨by decide, unary_negation ⟨true, [3, 4]⟩ (by decide)⟩

/-! ## The string `"-0"` -/

theorem ofString_minus_zero_eval : ofString "-0".toList = ⟨false, [0]⟩ := by decide

/-- C11 (as stated, refuted): the string constructor applied to `"-0"` does not give
`sign = true`, `digits = [0]`, rendering `"0"` and equal to `BigInt()`. -/
theorem ofString_minus_zero_not_canonical :
    ¬ ((ofString "-0".toList).sign = true ∧ (ofString "-0".toList).digits = [0] ∧
      toString (ofString "-0".toList) = "0".toList ∧
      eq (ofString "-0".toList) zero = true) := by
  rw [ofString_minus_zero_eval]
  decide

/-- C11 (amended): the string constructor applied to `"-0"` keeps the sign character: it
yields `sign = false`, `digits = [0]`, which renders as `"-0"` and is not equal to
`BigInt()`. The operand validation of the front end replaces a lone `"-0"` by `"0"`, and
from `"0"` the constructor yields the canonical zero, which renders as `"0"` and is equal
to `BigInt()`. -/
theorem ofString_minus_zero :
    ((ofString "-0".toList).sign = false ∧ (ofString "-0".toList).digits = [0] ∧
      toString (ofString "-0".toList) = "-0".toList ∧
      eq (ofString "-0".toList) zero = false) ∧
    validateOperand "-0".toList = some "0".toList ∧
    ((ofString "0".toList).sign = true ∧ (ofString "0".toList).digits = [0] ∧
      toString (ofString "0".toList) = "0".toList ∧
      eq (ofString "0".toList) zero = true) := by
  decide

/-! ## Evaluation through the value -/

theorem add_eval (a b t : BigInt) (ha : WellFormed a) (hb : WellFormed b)
    (ht : WellFormed t) (hv : value t = value a + value b) : add a b = t := by
  have h := addAssign_spec a b ha hb
  exact h.1.eq_of_value_eq ht (by rw [h.2, hv])

theorem sub_eval (a b t : BigInt) (ha : WellFormed a) (hb : WellFormed b)
    (ht : WellFormed t) (hv : value t = value a - value b) : sub a b = t := by
  have hn := neg_spec b hb
  have h := addAssign_spec a (neg b) ha hn.1
  apply h.1.eq_of_value_eq ht
  rw [h.2, hn.2.1, hv]
  omega

theorem mul_eval (a b t : BigInt) (ha : WellFormed a) (hb : WellFormed b)
    (ht : WellFormed t) (hv : value t = value a * value b) : mul a b = some t := by
  obtain ⟨r, h1, h2, h3, _⟩ := mulAssign_spec a b ha hb
  have : r = t := h2.eq_of_value_eq ht (by rw [h3, hv])
  rw [← this]
  exact h1

/-! ## Multiplication against native multiplication -/

/-- Away from the minimum, products of native integers are exact. -/
theorem mul_ofInt64_of_ne_min (x y : Int) (hx : IsInt64 x) (hy : IsInt64 y)
    (hxy : IsInt64 (x * y)) (hx' : x ≠ -(2 : Int) ^ 63) (hy' : y ≠ -(2 : Int) ^ 63)
    (hxy' : x * y ≠ -(2 : Int) ^ 63) :
    mul (ofInt64 x) (ofInt64 y) = some (ofInt64 (x * y)) := by
  have h1 := ofInt64_wellFormed x hx hx'
  have h2 := ofInt64_wellFormed y hy hy'
  have h3 := ofInt64_wellFormed (x * y) hxy hxy'
  exact mul_eval _ _ _ h1.1 h2.1 h3.1 (by rw [h1.2, h2.2, h3.2])

theorem mul_min_product_eval :
    mul (ofInt64 (-4611686018427387904)) (ofInt64 2) =
      some ⟨false, [8, 0, 8, 5, 7, 7, 4, 5, 8, 6, 3, 0, 2, 7, 3, 3, 2, 2, 9]⟩ := by
  have h1 := ofInt64_wellFormed (-4611686018427387904) (by decide) (by decide)
  have h2 := ofInt64_wellFormed 2 (by decide) (by decide)
  apply mul_eval _ _ _ h1.1 h2.1 (by decide)
  rw [h1.2, h2.2]
  decide

theorem ofInt64_one : ofInt64 1 = ⟨true, [1]⟩ := by
  have h := ofInt64_wellFormed 1 (by decide) (by decide)
  apply h.1.eq_of_value_eq (by decide)
  rw [h.2]
  decide

theorem mul_min_one_eval :
    mul ⟨false, [248, 0, 248, 251, 249, 249, 252, 251, 248, 250, 253, 0, 254, 249, 253, 253,
      254, 254, 247]⟩ ⟨true, [1]⟩ = none := by
  simp [mul, mulAssign, mulOuter, mulInner, List.replicate]

/-- C12 (failing inputs): for `x = -2^62` and `y = 2` the product `x * y = -2^63` is a signed
64-bit integer; `BigInt(x) * BigInt(y)` is the well-formed `-9223372036854775808`, while
`BigInt(x * y)` is the ill-formed result of the constructor at the minimum, so the two do
not compare equal. For `x = -2^63` and `y = 1` the left operand is that ill-formed result and
the carry loop of the multiplication leaves the pre-sized result vector. -/
theorem mul_native_min_product :
    (IsInt64 (-4611686018427387904) ∧ IsInt64 2 ∧ IsInt64 (-4611686018427387904 * 2) ∧
      mul (ofInt64 (-4611686018427387904)) (ofInt64 2) =
        some ⟨false, [8, 0, 8, 5, 7, 7, 4, 5, 8, 6, 3, 0, 2, 7, 3, 3, 2, 2, 9]⟩ ∧
      ofInt64 (-4611686018427387904 * 2) =
        ⟨false, [248, 0, 248, 251, 249, 249, 252, 251, 248, 250, 253, 0, 254, 249, 253, 253,
          254, 254, 247]⟩ ∧
      eq ⟨false, [8, 0, 8, 5, 7, 7, 4, 5, 8, 6, 3, 0, 2, 7, 3, 3, 2, 2, 9]⟩
        (ofInt64 (-4611686018427387904 * 2)) = false) ∧
    (IsInt64 (-(2 : Int) ^ 63) ∧ IsInt64 1 ∧ IsInt64 (-(2 : Int) ^ 63 * 1) ∧
      mul (ofInt64 (-(2 : Int) ^ 63)) (ofInt64 1) = none) := by
  have hmin : (-4611686018427387904 * 2 : Int) = -(2 : Int) ^ 63 := by decide
  refine ⟨⟨by decide, by decide, by decide, mul_min_product_eval, ?_, ?_⟩,
    ⟨by decide, by decide, by decide, ?_⟩⟩
  · rw [hmin]
    exact ofInt64_min_eval
  · rw [hmin, ofInt64_min_eval]
    decide
  · rw [ofInt64_min_eval, ofInt64_one]
    exact mul_min_one_eval

/-! ## The demonstration scenarios -/

theorem demo_add_eval :
    add (ofInt64 234326685623523) (ofString "980927189936952374194".toList) =
      ⟨true, [7, 1, 7, 7, 9, 9, 7, 3, 6, 3, 6, 2, 4, 2, 4, 7, 2, 9, 0, 8, 9]⟩ := by
  have h1 := ofInt64_wellFormed 234326685623523 (by decide) (by decide)
  have h2 : ofString "980927189936952374194".toList =
      ⟨true, [4, 9, 1, 4, 7, 3, 2, 5, 9, 6, 3, 9, 9, 8, 1, 7, 2, 9, 0, 8, 9]⟩ := by decide
  rw [h2]
  apply add_eval _ _ _ h1.1 (by decide) (by decide)
  rw [h1.2]
  decide

theorem demo_sub_eval :
    sub (ofInt64 7897013827597535246) (ofInt64 2187454325) =
      ⟨true, [1, 2, 9, 0, 8, 0, 0, 1, 4, 5, 2, 8, 3, 1, 0, 7, 9, 8, 7]⟩ := by
  have h1 := ofInt64_wellFormed 7897013827597535246 (by decide) (by decide)
  have h2 := ofInt64_wellFormed 2187454325 (by decide) (by decide)
  apply sub_eval _ _ _ h1.1 h2.1 (by decide)
  rw [h1.2, h2.2]
  decide

theorem demo_mul_eval :
    mul (ofInt64 212353526236) (ofInt64 (-3462930817434286)) =
      some ⟨false, [6, 9, 4, 7, 2, 9, 6, 0, 3, 8, 7, 5, 4, 8, 4, 3, 9, 1, 0, 7, 5, 5, 6, 3,
        5, 3, 7]⟩ := by
  have h1 := ofInt64_wellFormed 212353526236 (by decide) (by decide)
  have h2 := ofInt64_wellFormed (-3462930817434286) (by decide) (by decide)
  apply mul_eval _ _ _ h1.1 h2.1 (by decide)
  rw [h1.2, h2.2]
  decide

/-- C18 (as stated, refuted): `BigInt(234326685623523) + BigInt("980927189936952374194")`
does not render as `"980927189937186700879717"`. -/
theorem demo_add_not_as_stated :
    toString (add (ofInt64 234326685623523) (ofString "980927189936952374194".toList)) ≠
      "980927189937186700879717".toList := by
  rw [demo_add_eval]
  decide

/-- C18 (amended): `BigInt(234326685623523) + BigInt("980927189936952374194")` renders via
`toString` as `"980927424263637997717"`, the decimal form of the integer sum. -/
theorem demo_add_renders :
    toString (add (ofInt64 234326685623523) (ofString "980927189936952374194".toList)) =
      "980927424263637997717".toList := by
  rw [demo_add_eval]
  decide

/-- C19 (as stated, refuted): `BigInt(7897013827597535246) - BigInt(2187454325)` does not
render as `"7897013827595347792921"`. -/
theorem demo_sub_not_as_stated :
    toString (sub (ofInt64 7897013827597535246) (ofInt64 2187454325)) ≠
      "7897013827595347792921".toList := by
  rw [demo_sub_eval]
  decide

/-- C19 (amended): `BigInt(7897013827597535246) - BigInt(2187454325)` renders via `toString`
as `"7897013825410080921"`, the decimal form of the integer difference. -/
theorem demo_sub_renders :
    toString (sub (ofInt64 7897013827597535246) (ofInt64 2187454325)) =
      "7897013825410080921".toList := by
  rw [demo_sub_eval]
  decide

/-- C20 (as stated, refuted): `BigInt(212353526236) * BigInt(-3462930817434286)` does not
render as `"-735319602654427219462693896"`. -/
theorem demo_mul_not_as_stated :
    (mul (ofInt64 212353526236) (ofInt64 (-3462930817434286))).map toString ≠
      some "-735319602654427219462693896".toList := by
  rw [demo_mul_eval]
  decide

/-- C20 (amended): `BigInt(212353526236) * BigInt(-3462930817434286)` produces a result that
renders via `toString` as `"-735365570193484578306927496"`, the decimal form of the integer
product. -/
theorem demo_mul_renders :
    (mul (ofInt64 212353526236) (ofInt64 (-3462930817434286))).map toString =
      some "-735365570193484578306927496".toList := by
  rw [demo_mul_eval]
  decide

/-! ## Derived comparisons and the magnitude helpers -/

theorem natAbs_value (a : BigInt) : (value a).natAbs = magnitude a.digits := by
  unfold value
  cases a.sign <;> simp

/-- C22: for every pair of `BigInt` states `a`, `b`, `a <= b` (defined as `!(a > b)`) is true
exactly when `a < b` or `a == b` is, and `a >= b` (defined as `!(a < b)`) is true exactly
when `a > b` or `a == b` is. -/
theorem derived_comparisons_consistent (a b : BigInt) :
    (le a b = true ↔ (lt a b = true ∨ eq a b = true)) ∧
    (ge a b = true ↔ (gt a b = true ∨ eq a b = true)) := by
  unfold le ge
  rcases trichotomy_aux a b with h | h | h <;>
    simp [h.1, h.2.1, h.2.2]

/-- C24: for well-formed `a` and `b` of different signs, `isAbsGreaterOrEqual(a, b)` is true
exactly when `|value a| >= |value b|`. -/
theorem isAbsGreaterOrEqual_correct (a b : BigInt) (ha : WellFormed a) (hb : WellFormed b)
    (hs : a.sign ≠ b.sign) :
    isAbsGreaterOrEqual a b = true ↔ |value a| ≥ |value b| := by
  rw [isAbsGreaterOrEqual_iff a b ha hb hs, Int.abs_eq_natAbs, Int.abs_eq_natAbs,
    natAbs_value, natAbs_value]
  exact Nat.cast_le.symm

theorem isAbsGreaterOrEqual_correct_witness :
    WellFormed ⟨false, [0, 2]⟩ ∧ WellFormed ⟨true, [9, 1]⟩ ∧
      (⟨false, [0, 2]⟩ : BigInt).sign ≠ (⟨true, [9, 1]⟩ : BigInt).sign ∧
      (isAbsGreaterOrEqual ⟨false, [0, 2]⟩ ⟨true, [9, 1]⟩ = true ↔
        |value ⟨false, [0, 2]⟩| ≥ |value ⟨true, [9, 1]⟩|) :=
  ⟨by decide, by decide, by decide,
    isAbsGreaterOrEqual_correct ⟨false, [0, 2]⟩ ⟨true, [9, 1]⟩
      (by decide) (by decide) (by decide)⟩

/-- C25: for well-formed `r` and `b` with `|value r| >= |value b|`, after
`r.subtractAbs(b)` the digits of `r` are the canonical little-endian decimal digits of
`|value r| - |value b|` (every digit in `0..9`, no most-significant zero unless the digits
are `[0]`, magnitude exactly the difference, so no borrow is left over) and the sign of `r`
is unchanged. -/
theorem subtractAbs_correct (r b : BigInt) (hr : WellFormed r) (hb : WellFormed b)
    (hge : |value r| ≥ |value b|) :
    Canonical (subtractAbs r b).digits ∧
      (magnitude (subtractAbs r b).digits : Int) = |value r| - |value b| ∧
      (subtractAbs r b).digits =
        (if |value r| - |value b| = 0 then [0]
          else Nat.digits 10 (|value r| - |value b|).toNat) ∧
      (subtractAbs r b).sign = r.sign := by
  rw [Int.abs_eq_natAbs, Int.abs_eq_natAbs, natAbs_value, natAbs_value] at hge ⊢
  have hge' : magnitude b.digits ≤ magnitude r.digits := by exact_mod_cast hge
  obtain ⟨h1, h2, h3⟩ := subtractAbs_spec r b hr hb hge'
  have hm : (magnitude (subtractAbs r b).digits : Int) =
      (magnitude r.digits : Int) - (magnitude b.digits : Int) := by omega
  refine ⟨h2, hm, ?_, h3⟩
  by_cases h0 : (magnitude r.digits : Int) - (magnitude b.digits : Int) = 0
  · rw [if_pos h0]
    apply h2.eq_zero_of_magnitude
    omega
  · rw [if_neg h0]
    have hn : ((magnitude r.digits : Int) - (magnitude b.digits : Int)).toNat =
        magnitude (subtractAbs r b).digits := by omega
    rw [hn]
    have hne : magnitude (subtractAbs r b).digits ≠ 0 := by omega
    apply h2.eq_of_magnitude_eq (digits_canonical _ hne)
    rw [magnitude_digits]

theorem subtractAbs_correct_witness :
    WellFormed ⟨false, [0, 0, 1]⟩ ∧ WellFormed ⟨true, [1]⟩ ∧
      |value ⟨false, [0, 0, 1]⟩| ≥ |value ⟨true, [1]⟩| ∧
      (Canonical (subtractAbs ⟨false, [0, 0, 1]⟩ ⟨true, [1]⟩).digits ∧
        (magnitude (subtractAbs ⟨false, [0, 0, 1]⟩ ⟨true, [1]⟩).digits : Int) =
          |value ⟨false, [0, 0, 1]⟩| - |value ⟨true, [1]⟩| ∧
        (subtractAbs ⟨false, [0, 0, 1]⟩ ⟨true, [1]⟩).digits =
          (if |value ⟨false, [0, 0, 1]⟩| - |value ⟨true, [1]⟩| = 0 then [0]
            else Nat.digits 10 (|value ⟨false, [0, 0, 1]⟩| - |value ⟨true, [1]⟩|).toNat) ∧
        (subtractAbs ⟨false, [0, 0, 1]⟩ ⟨true, [1]⟩).sign =
          (⟨false, [0, 0, 1]⟩ : BigInt).sign) :=
  ⟨by decide, by decide, by decide,
    subtractAbs_correct ⟨false, [0, 0, 1]⟩ ⟨true, [1]⟩ (by decide) (by decide) (by decide)⟩

/-- C26: the two separately written ordering routines mirror each other: for every pair of
`BigInt` states `a`, `b`, of any sign and digit count, `a > b` returns the same boolean as
`b < a`. -/
theorem gt_mirrors_lt (a b : BigInt) : gt a b = lt b a :=
  gt_eq_lt_swap a b

/-! ## The carry loop of the multiplication -/

theorem mulInnerTrace_spec (result : List Nat) (ai : Nat) (rhs : List Nat) (i j carry : Nat)
    (hd : ∀ d ∈ result, d ≤ 9) (hr : ∀ d ∈ rhs, d ≤ 9) (hai : ai ≤ 9)
    (hb : i + rhs.length < result.length)
    (hj : j ≤ rhs.length → carry ≤ 9 ∧ result.getD (i + rhs.length) 0 = 0)
    (hj' : rhs.length < j → carry = 0) (hjb : j ≤ rhs.length + 1) :
    (mulInnerTrace result ai rhs i j carry).length + j ≤ rhs.length + 1 ∧
      ∀ k ∈ mulInnerTrace result ai rhs i j carry, k ≤ i + rhs.length := by
  induction result, ai, rhs, i, j, carry using mulInnerTrace.induct with
  | case1 result ai rhs i j carry hcond hin current ih =>
    have hunfold : mulInnerTrace result ai rhs i j carry =
        (i + j) ::
          mulInnerTrace (result.set (i + j) (current % 10)) ai rhs i (j + 1) (current / 10) := by
      rw [mulInnerTrace, if_pos hcond, if_pos hin]
      rfl
    rw [hunfold]
    have hjle : j ≤ rhs.length := by
      by_contra hgt
      have hc := hj' (by omega)
      rcases hcond with h1 | h1
      · omega
      · exact h1 hc
    obtain ⟨hc9, hz⟩ := hj hjle
    have hx := getD_le_nine result (i + j) hd
    have hy := getD_le_nine rhs j hr
    have hprod : ai * rhs.getD j 0 ≤ 81 := Nat.mul_le_mul hai hy
    have hcur : current ≤ 99 ∧ (j = rhs.length → current ≤ 9) := by
      simp only [current, dite_eq_ite]
      constructor
      · split <;> omega
      · intro hjn
        have hnot : ¬ j < rhs.length := by omega
        rw [if_neg hnot, hjn, hz]
        omega
    have hm : current % 10 ≤ 9 := by omega
    have hd2 := set_le_nine result (i + j) (current % 10) hd hm
    obtain ⟨h1, h2⟩ := ih hd2 hr hai (by rw [List.length_set]; exact hb)
      (by
        intro hle
        constructor
        · omega
        · rw [List.getD_eq_getElem?_getD, List.getElem?_set_ne (by omega),
            ← List.getD_eq_getElem?_getD]
          exact hz)
      (by
        intro hlt
        have hjn : j = rhs.length := by omega
        have := hcur.2 hjn
        omega)
      (by omega)
    constructor
    · simp only [List.length_cons]
      omega
    · intro k hk
      rcases List.mem_cons.mp hk with h | h
      · omega
      · exact h2 k h
  | case2 result ai rhs i j carry hcond hin =>
    exfalso
    have hgt : rhs.length < j := by omega
    have hc := hj' hgt
    rcases hcond with h1 | h1
    · omega
    · exact h1 hc
  | case3 result ai rhs i j carry hcond =>
    rw [mulInnerTrace, if_neg hcond]
    exact ⟨by simpa using hjb, fun k hk => absurd hk (List.not_mem_nil k)⟩

/-- The trace is faithful to the loop: the loop fails exactly when its trace holds an index
outside the result vector. -/
theorem mulInner_none_iff (result : List Nat) (ai : Nat) (rhs : List Nat) (i j carry : Nat) :
    mulInner result ai rhs i j carry = none ↔
      ∃ k ∈ mulInnerTrace result ai rhs i j carry, result.length ≤ k := by
  induction result, ai, rhs, i, j, carry using mulInner.induct with
  | case1 result ai rhs i j carry hcond hin current ih =>
    have hunfold : mulInner result ai rhs i j carry =
        mulInner (result.set (i + j) (current % 10)) ai rhs i (j + 1) (current / 10) := by
      rw [mulInner, if_pos hcond, if_pos hin]
      rfl
    have htrace : mulInnerTrace result ai rhs i j carry =
        (i + j) ::
          mulInnerTrace (result.set (i + j) (current % 10)) ai rhs i (j + 1) (current / 10) := by
      rw [mulInnerTrace, if_pos hcond, if_pos hin]
      rfl
    rw [hunfold, htrace, ih, List.length_set]
    constructor
    · rintro ⟨k, hk, hle⟩
      exact ⟨k, List.mem_cons_of_mem _ hk, hle⟩
    · rintro ⟨k, hk, hle⟩
      rcases List.mem_cons.mp hk with h | h
      · omega
      · exact ⟨k, h, hle⟩
  | case2 result ai rhs i j carry hcond hin =>
    rw [mulInner, if_pos hcond, if_neg hin, mulInnerTrace, if_pos hcond, if_neg hin]
    simp only [true_iff]
    exact ⟨i + j, List.mem_singleton.mpr rfl, by omega⟩
  | case3 result ai rhs i j carry hcond =>
    rw [mulInner, if_neg hcond, mulInnerTrace, if_neg hcond]
    simp

theorem mulOuterTrace_spec (result lhs rhs : List Nat) (i : Nat)
    (hd : ∀ d ∈ result, d ≤ 9) (hl : ∀ d ∈ lhs, d ≤ 9) (hr : ∀ d ∈ rhs, d ≤ 9)
    (hlen : result.length = lhs.length + rhs.length)
    (hz : ∀ k, i + rhs.length ≤ k → result.getD k 0 = 0) :
    (mulOuterTrace result lhs rhs i).length = lhs.length - i ∧
      ∀ row ∈ mulOuterTrace result lhs rhs i,
        row.length ≤ rhs.length + 1 ∧ ∀ k ∈ row, k < lhs.length + rhs.length := by
  generalize hn : lhs.length - i = n
  induction n generalizing result i with
  | zero =>
    have hi : ¬ i < lhs.length := by omega
    rw [mulOuterTrace, if_neg hi]
    exact ⟨rfl, fun row hrow => absurd hrow (List.not_mem_nil row)⟩
  | succ n ih =>
    have hi : i < lhs.length := by omega
    have hai := getD_le_nine lhs i hl
    have hb : i + rhs.length < result.length := by omega
    obtain ⟨r1, h1, h2, h3⟩ := mulInner_some result (lhs.getD i 0) rhs i 0 0 hd hr hai hb
      (fun _ => ⟨Nat.zero_le _, hz _ (Nat.le_refl _)⟩) (fun _ => rfl)
    obtain ⟨t1, t2⟩ := mulInnerTrace_spec result (lhs.getD i 0) rhs i 0 0 hd hr hai hb
      (fun _ => ⟨Nat.zero_le _, hz _ (Nat.le_refl _)⟩) (fun _ => rfl) (Nat.zero_le _)
    obtain ⟨_, hlen1⟩ := mulInner_value result (lhs.getD i 0) rhs i 0 0 r1 h1
    obtain ⟨g1, g2⟩ := ih r1 (i + 1) h2 (by rw [hlen1]; exact hlen)
      (by
        intro k hk
        rw [h3 k (by omega)]
        exact hz k (by omega))
      (by omega)
    rw [mulOuterTrace, if_pos hi]
    simp only [h1]
    constructor
    · simp only [List.length_cons, g1]
    · intro row hrow
      rcases List.mem_cons.mp hrow with h | h
      · rw [h]
        refine ⟨by omega, fun k hk => ?_⟩
        have := t2 k hk
        omega
      · exact g2 row h

/-- C23: for well-formed `a` and `b`, in `a *= b` the inner loop runs once for each digit
index `i` of `a`, ends after at most `len(b) + 1` iterations, and every index `i + j` it
reads or writes is strictly less than `len(a) + len(b)`: the out-of-range branch is not
reached and the multiplication returns a result. -/
theorem mul_carry_loop_in_range (a b : BigInt) (ha : WellFormed a) (hb : WellFormed b) :
    (mulAssignTrace a b).length = a.digits.length ∧
      (∀ row ∈ mulAssignTrace a b,
        row.length ≤ b.digits.length + 1 ∧
          ∀ k ∈ row, k < a.digits.length + b.digits.length) ∧
      (mulAssign a b).isSome = true := by
  have ca := ha.canonical
  have cb := hb.canonical
  obtain ⟨h1, h2⟩ := mulOuterTrace_spec
    (List.replicate (a.digits.length + b.digits.length) 0) a.digits b.digits 0
    (by
      intro d hmem
      rw [(List.mem_replicate.mp hmem).2]
      omega)
    ca.2.1 cb.2.1 (by simp)
    (by
      intro k _
      by_cases hk : k < a.digits.length + b.digits.length
      · rw [List.getD_eq_getElem _ _ (by simpa using hk)]
        simp
      · rw [List.getD_eq_default _ _ (by simpa using hk)])
  obtain ⟨r, hr, _⟩ := mulAssign_spec a b ha hb
  refine ⟨by simpa [mulAssignTrace] using h1, h2, ?_⟩
  rw [hr]
  rfl

theorem mul_carry_loop_in_range_witness :
    WellFormed ⟨true, [9, 9]⟩ ∧ WellFormed ⟨false, [9, 9, 9]⟩ ∧
      ((mulAssignTrace ⟨true, [9, 9]⟩ ⟨false, [9, 9, 9]⟩).length =
          (⟨true, [9, 9]⟩ : BigInt).digits.length ∧
        (∀ row ∈ mulAssignTrace ⟨true, [9, 9]⟩ ⟨false, [9, 9, 9]⟩,
          row.length ≤ (⟨false, [9, 9, 9]⟩ : BigInt).digits.length + 1 ∧
            ∀ k ∈ row, k < (⟨true, [9, 9]⟩ : BigInt).digits.length +
              (⟨false, [9, 9, 9]⟩ : BigInt).digits.length) ∧
        (mulAssign ⟨true, [9, 9]⟩ ⟨false, [9, 9, 9]⟩).isSome = true) :=
  ⟨by decide, by decide,
    mul_carry_loop_in_range ⟨true, [9, 9]⟩ ⟨false, [9, 9, 9]⟩ (by decide) (by decide)⟩

/-! ## Operands accepted by the front end -/

theorem charToDigit_eq_zero (c : Char) (h : c.isDigit = true) (h0 : charToDigit c = 0) :
    c = '0' := by
  have h1 := (charToDigit_spec c h).1
  rw [h0] at h1
  rw [← h1]
  decide

theorem ofString_digits (s : List Char) (h : ∀ c ∈ s, c.isDigit = true) :
    ofString s = ⟨true, s.reverse.map charToDigit⟩ := by
  have h1 : ¬ s.headD (Char.ofNat 0) = '-' := by
    cases s with
    | nil => decide
    | cons c cs => exact (charToDigit_spec c (h c (List.mem_cons_self _ _))).2.2.1
  have h2 : ¬ s.headD (Char.ofNat 0) = '+' := by
    cases s with
    | nil => decide
    | cons c cs => exact (charToDigit_spec c (h c (List.mem_cons_self _ _))).2.2.2
  simp only [ofString, h1, h2, if_false]

theorem reverse_map_le_nine (s : List Char) (h : ∀ c ∈ s, c.isDigit = true) :
    ∀ d ∈ s.reverse.map charToDigit, d ≤ 9 := by
  intro d hd
  simp only [List.mem_map, List.mem_reverse] at hd
  obtain ⟨c, hc, rfl⟩ := hd
  exact (charToDigit_spec c (h c hc)).2.1

/-- The digits stored for a non-empty row of digit characters are well-formed under a sign
`sg` as soon as the first character is not `'0'`. -/
theorem wellFormed_of_digits (sg : Bool) (c : Char) (cs : List Char)
    (h : ∀ x ∈ c :: cs, x.isDigit = true) (hc : c ≠ '0') :
    WellFormed ⟨sg, (c :: cs).reverse.map charToDigit⟩ := by
  have hlast : ((c :: cs).reverse.map charToDigit).getLast? = some (charToDigit c) := by
    simp
  have hne : charToDigit c ≠ 0 :=
    fun h0 => hc (charToDigit_eq_zero c (h c (List.mem_cons_self _ _)) h0)
  refine ⟨by simp, reverse_map_le_nine _ h, ?_, ?_⟩
  · intro h0
    rw [hlast] at h0
    exact absurd (Option.some.inj h0) hne
  · intro h0
    have h1 := congrArg List.getLast? h0
    rw [hlast] at h1
    exact absurd (Option.some.inj h1) hne

/-- What the operand validation guarantees: an accepted operand gives a well-formed `BigInt`
whenever the string handed on does not start with `'0'` or is `"0"` itself. The validation
rejects a leading zero only after a minus sign. -/
theorem validateOperand_wellFormed (s t : List Char) (h : validateOperand s = some t)
    (hz : t.head? = some '0' → t = ['0']) : WellFormed (ofString t) := by
  cases s with
  | nil => simp [validateOperand] at h
  | cons c cs =>
    by_cases hc : c = '-'
    · subst hc
      cases cs with
      | nil => simp [validateOperand] at h
      | cons c1 cs1 =>
        by_cases hc1 : c1 = '0'
        · subst hc1
          cases cs1 with
          | nil =>
            simp [validateOperand] at h
            subst h
            decide
          | cons c2 cs2 => simp [validateOperand] at h
        · simp [validateOperand, hc1] at h
          obtain ⟨⟨hd1, hd2⟩, rfl⟩ := h
          have hall : ∀ x ∈ c1 :: cs1, x.isDigit = true := by
            intro x hx
            rcases List.mem_cons.mp hx with h1 | h1
            · rw [h1]; exact hd1
            · exact hd2 x h1
          have := wellFormed_of_digits false c1 cs1 hall hc1
          simpa [ofString] using this
    · simp [validateOperand, hc] at h
      obtain ⟨⟨hd1, hd2⟩, rfl⟩ := h
      have hall : ∀ x ∈ c :: cs, x.isDigit = true := by
        intro x hx
        rcases List.mem_cons.mp hx with h1 | h1
        · rw [h1]; exact hd1
        · exact hd2 x h1
      rw [ofString_digits _ hall]
      by_cases h0 : c = '0'
      · have := hz (by simp [h0])
        rw [this]
        decide
      · exact wellFormed_of_digits true c cs hall h0

theorem sub_leading_zeros_eval :
    sub ⟨true, [7, 0, 0]⟩ ⟨true, [0, 1]⟩ = ⟨true, [7, 9, 9]⟩ := by
  simp [sub, subAssign, addAssign, neg, isZeroDigits, isAbsGreaterOrEqual, ge, lt, size,
    subtractAbs, subtractAbsLoop, trim, toUInt8]

/-- C21 (failing input): the operand validation accepts `"007"` and hands it on unchanged;
the string constructor stores the digits `[7, 0, 0]`, with two most-significant zeros, so
the `BigInt` is not well-formed. It does not compare equal to `BigInt("7")`, and
`BigInt("007") - BigInt("10")` renders as `"997"`. -/
theorem validateOperand_leading_zeros :
    validateOperand "007".toList = some "007".toList ∧
      ofString "007".toList = ⟨true, [7, 0, 0]⟩ ∧
      ¬ WellFormed (ofString "007".toList) ∧
      eq (ofString "007".toList) (ofString "7".toList) = false ∧
      validateOperand "10".toList = some "10".toList ∧
      toString (sub (ofString "007".toList) (ofString "10".toList)) = "997".toList := by
  have h1 : ofString "007".toList = ⟨true, [7, 0, 0]⟩ := by decide
  have h2 : ofString "10".toList = ⟨true, [0, 1]⟩ := by decide
  refine ⟨by decide, h1, by decide, by decide, by decide, ?_⟩
  rw [h1, h2, sub_leading_zeros_eval]
  decide

end BigInt
